import Mathlib

/-!
Verification of the hacktivity resilient fetch-orchestration core.

The development shallowly embeds the Python modules
`hacktivity/core/chunking.py`, `hacktivity/core/circuit_breaker.py`,
`hacktivity/core/rate_limiter.py`, `hacktivity/core/state.py` and
`hacktivity/core/parallel.py` and proves/refutes the specification's
testable properties against the embedding.
-/

namespace Hacktivity

/-! ### Dates

Dates are modelled as day numbers (days since 1970-01-01).  This mirrors
Python `datetime` arithmetic exactly on valid `YYYY-MM-DD` strings:
`strptime` turns a date string into a calendar date, `timedelta(days = k)`
adds `k` to the day number, `strftime` is the inverse of `strptime`, and
comparison of `datetime` values coincides with comparison of day numbers.
`daysFromCivil` is the standard civil-calendar to day-number conversion used
to state concrete-date examples. -/

def daysFromCivil (y m d : Int) : Int :=
  let y' := if m ≤ 2 then y - 1 else y
  let era := (if 0 ≤ y' then y' else y' - 399) / 400
  let yoe := y' - era * 400
  let mp := (m + 9) % 12
  let doy := (153 * mp + 2) / 5 + d - 1
  let doe := yoe * 365 + yoe / 4 - yoe / 100 + doy
  era * 146097 + doe - 719468

/-- Day number of a civil date as a `Nat` (all dates handled by the claims
are on or after 1970-01-01). -/
def dayNat (y m d : Int) : Nat := (daysFromCivil y m d).toNat

/-! ### `chunking.create_date_chunks` -/

/-- Mirror of the `DateChunk` dataclass (`chunking.py`).  `since`/`until_`
are day numbers of the `YYYY-MM-DD` strings (`until` is a reserved word in
Lean, hence the underscore). -/
structure DateChunk where
  since : Nat
  until_ : Nat
  index : Nat
deriving DecidableEq, Repr

/-- The `while current_date <= end_date` loop of `create_date_chunks`
(`chunking.py` lines 66-83).  The loop is expressed with explicit fuel;
`until + 1 - current` steps suffice whenever `maxDays ≥ 1` (for
`max_days = 0` the Python loop does not terminate, a regime outside every
claim). -/
def chunksFromAux : Nat → Nat → Nat → Nat → Nat → List DateChunk
  | 0, _, _, _, _ => []
  | fuel + 1, current, untl, maxDays, idx =>
    if current ≤ untl then
      -- chunk_end = min(current + timedelta(days=max_days - 1), end_date)
      let chunkEnd := min (current + maxDays - 1) untl
      ⟨current, chunkEnd, idx⟩ ::
        chunksFromAux fuel (chunkEnd + 1) untl maxDays (idx + 1)
    else []

/-- Mirror of `create_date_chunks(since, until, max_days)` for a valid range
(`since ≤ until`); the `since > until` branch raises `ValueError` and is
modelled by `createDateChunksE` below. -/
def createDateChunks (since untl maxDays : Nat) : List DateChunk :=
  chunksFromAux (untl + 1 - since) since untl maxDays 0

/-- `create_date_chunks` including its `ValueError` on an inverted range. -/
def createDateChunksE (since untl maxDays : Nat) :
    Except String (List DateChunk) :=
  if untl < since then
    .error "Start date must be before or equal to end date"
  else
    .ok (createDateChunks since untl maxDays)

example : createDateChunks 0 13 7 = [⟨0, 6, 0⟩, ⟨7, 13, 1⟩] := by decide
example : createDateChunks 5 5 7 = [⟨5, 5, 0⟩] := by decide

theorem chunksFromAux_of_gt (fuel current untl maxDays idx : Nat)
    (h : untl < current) :
    chunksFromAux fuel current untl maxDays idx = [] := by
  cases fuel with
  | zero => rfl
  | succ n => simp [chunksFromAux, Nat.not_le.mpr h]

theorem chunksFromAux_head_since (fuel current untl maxDays idx : Nat)
    (c : DateChunk)
    (h : (chunksFromAux fuel current untl maxDays idx).head? = some c) :
    c.since = current := by
  cases fuel with
  | zero => simp [chunksFromAux] at h
  | succ n =>
    by_cases hc : current ≤ untl
    · simp only [chunksFromAux, if_pos hc, List.head?_cons] at h
      cases h; rfl
    · simp [chunksFromAux, hc] at h

theorem chunksFromAux_map_index (untl maxDays : Nat) :
    ∀ fuel current idx,
      (chunksFromAux fuel current untl maxDays idx).map DateChunk.index =
        List.range' idx (chunksFromAux fuel current untl maxDays idx).length := by
  intro fuel
  induction fuel with
  | zero => intro current idx; simp [chunksFromAux]
  | succ n ih =>
    intro current idx
    by_cases hc : current ≤ untl
    · simp only [chunksFromAux, if_pos hc, List.map_cons, List.length_cons,
        List.range'_succ]
      rw [ih]
    · simp [chunksFromAux, hc]

theorem chunksFromAux_span (untl maxDays : Nat) (hm : 1 ≤ maxDays) :
    ∀ fuel current idx, ∀ c ∈ chunksFromAux fuel current untl maxDays idx,
      c.since ≤ c.until_ ∧ c.until_ + 1 ≤ c.since + maxDays := by
  intro fuel
  induction fuel with
  | zero => intro current idx c hmem; simp [chunksFromAux] at hmem
  | succ n ih =>
    intro current idx c hmem
    by_cases hc : current ≤ untl
    · simp only [chunksFromAux, if_pos hc, List.mem_cons] at hmem
      rcases hmem with rfl | hmem
      · simp only
        omega
      · exact ih _ _ c hmem
    · simp [chunksFromAux, hc] at hmem

theorem chunksFromAux_since_ge (untl maxDays : Nat) (hm : 1 ≤ maxDays) :
    ∀ fuel current idx, ∀ c ∈ chunksFromAux fuel current untl maxDays idx,
      current ≤ c.since := by
  intro fuel
  induction fuel with
  | zero => intro current idx c hmem; simp [chunksFromAux] at hmem
  | succ n ih =>
    intro current idx c hmem
    by_cases hc : current ≤ untl
    · simp only [chunksFromAux, if_pos hc, List.mem_cons] at hmem
      rcases hmem with rfl | hmem
      · exact Nat.le_refl _
      · have := ih _ (idx + 1) c hmem
        omega
    · simp [chunksFromAux, hc] at hmem

theorem chunksFromAux_chain' (untl maxDays : Nat) :
    ∀ fuel current idx,
      (chunksFromAux fuel current untl maxDays idx).Chain'
        (fun a b => b.since = a.until_ + 1) := by
  intro fuel
  induction fuel with
  | zero => intro current idx; simp [chunksFromAux]
  | succ n ih =>
    intro current idx
    by_cases hc : current ≤ untl
    · simp only [chunksFromAux, if_pos hc]
      rw [List.chain'_cons']
      refine ⟨?_, ih _ _⟩
      intro b hb
      have := chunksFromAux_head_since n _ untl maxDays (idx + 1) b hb
      simp only
      omega
    · simp [chunksFromAux, hc]

theorem chunksFromAux_pairwise (untl maxDays : Nat) (hm : 1 ≤ maxDays) :
    ∀ fuel current idx,
      (chunksFromAux fuel current untl maxDays idx).Pairwise
        (fun a b => a.until_ < b.since) := by
  intro fuel
  induction fuel with
  | zero => intro current idx; simp [chunksFromAux]
  | succ n ih =>
    intro current idx
    by_cases hc : current ≤ untl
    · simp only [chunksFromAux, if_pos hc]
      refine List.Pairwise.cons ?_ (ih _ _)
      intro b hb
      have := chunksFromAux_since_ge untl maxDays hm n _ (idx + 1) b hb
      simp only
      omega
    · simp [chunksFromAux, hc]

theorem chunksFromAux_cover (untl maxDays : Nat) (hm : 1 ≤ maxDays) :
    ∀ fuel current idx, current ≤ untl → untl + 1 - current ≤ fuel → ∀ d,
      (current ≤ d ∧ d ≤ untl) ↔
        ∃ c ∈ chunksFromAux fuel current untl maxDays idx,
          c.since ≤ d ∧ d ≤ c.until_ := by
  intro fuel
  induction fuel with
  | zero => intro current idx hc hf; omega
  | succ n ih =>
    intro current idx hc hf d
    simp only [chunksFromAux, if_pos hc, List.exists_mem_cons_iff]
    by_cases h1 : untl ≤ current + maxDays - 1
    · have hce : min (current + maxDays - 1) untl = untl := by omega
      rw [hce, chunksFromAux_of_gt n (untl + 1) untl maxDays (idx + 1) (by omega)]
      simp only [List.not_mem_nil, false_and, exists_false, or_false]
    · have hce : min (current + maxDays - 1) untl = current + maxDays - 1 := by
        omega
      rw [hce]
      rw [← ih (current + maxDays - 1 + 1) (idx + 1) (by omega) (by omega) d]
      omega

/-- C1: for every valid range `since ≤ until` and `max_days ≥ 1`,
`create_date_chunks` returns chunks with 0-based contiguous indices, that
are contiguous, non-overlapping, chronologically ascending, each spanning at
most `max_days` days, whose union is exactly `[since, until]`; and the
concrete example `2024-01-01 .. 2024-01-14` with `max_days = 7` yields
exactly the chunks `[2024-01-01, 2024-01-07]` and `[2024-01-08, 2024-01-14]`. -/
theorem create_date_chunks_correct (since untl maxDays : Nat)
    (hle : since ≤ untl) (hmax : 1 ≤ maxDays) :
    ((createDateChunks since untl maxDays).map DateChunk.index =
        List.range (createDateChunks since untl maxDays).length) ∧
    ((createDateChunks since untl maxDays).Chain'
        (fun a b => b.since = a.until_ + 1)) ∧
    ((createDateChunks since untl maxDays).Pairwise
        (fun a b => a.until_ < b.since)) ∧
    (∀ c ∈ createDateChunks since untl maxDays,
        c.since ≤ c.until_ ∧ c.until_ + 1 ≤ c.since + maxDays) ∧
    (∀ d, (since ≤ d ∧ d ≤ untl) ↔
        ∃ c ∈ createDateChunks since untl maxDays,
          c.since ≤ d ∧ d ≤ c.until_) ∧
    createDateChunks (dayNat 2024 1 1) (dayNat 2024 1 14) 7 =
      [⟨dayNat 2024 1 1, dayNat 2024 1 7, 0⟩,
       ⟨dayNat 2024 1 8, dayNat 2024 1 14, 1⟩] := by
  refine ⟨?_, ?_, ?_, ?_, ?_, ?_⟩
  · rw [List.range_eq_range']
    exact chunksFromAux_map_index untl maxDays _ since 0
  · exact chunksFromAux_chain' untl maxDays _ since 0
  · exact chunksFromAux_pairwise untl maxDays hmax _ since 0
  · exact chunksFromAux_span untl maxDays hmax _ since 0
  · exact chunksFromAux_cover untl maxDays hmax _ since 0 hle (Nat.le_refl _)
  · decide

/-- Witness for C1 at `since = 0`, `until = 13`, `max_days = 7`. -/
theorem create_date_chunks_correct_witness :
    (0 : Nat) ≤ 13 ∧ (1 : Nat) ≤ 7 ∧
    (((createDateChunks 0 13 7).map DateChunk.index =
        List.range (createDateChunks 0 13 7).length) ∧
    ((createDateChunks 0 13 7).Chain' (fun a b => b.since = a.until_ + 1)) ∧
    ((createDateChunks 0 13 7).Pairwise (fun a b => a.until_ < b.since)) ∧
    (∀ c ∈ createDateChunks 0 13 7,
        c.since ≤ c.until_ ∧ c.until_ + 1 ≤ c.since + 7) ∧
    (∀ d, ((0 : Nat) ≤ d ∧ d ≤ 13) ↔
        ∃ c ∈ createDateChunks 0 13 7, c.since ≤ d ∧ d ≤ c.until_) ∧
    createDateChunks (dayNat 2024 1 1) (dayNat 2024 1 14) 7 =
      [⟨dayNat 2024 1 1, dayNat 2024 1 7, 0⟩,
       ⟨dayNat 2024 1 8, dayNat 2024 1 14, 1⟩]) :=
  ⟨by decide, by decide,
    create_date_chunks_correct 0 13 7 (by decide) (by decide)⟩

/-! ### `circuit_breaker.CircuitBreaker`

The breaker is a sequential state machine `(state, failures, opened_at)`
(`circuit_breaker.py`).  `call` is modelled as a function of the current
time and of whether the wrapped callable succeeds; the outcome records
whether the wrapped function was invoked at all (`rejected` means
`CircuitOpenError` was raised without invoking it).  Time is in seconds as
a `Nat`; the code's `time.time() - opened_at >= cooldown` is written
`opened_at + cooldown ≤ now`. -/

inductive CircuitState
  | closed
  | opened
  | halfOpen
deriving DecidableEq, Repr

structure CBConfig where
  cbFailureThreshold : Nat
  cbCooldownSec : Nat
deriving Repr

structure Circuit where
  state : CircuitState
  failures : Nat
  openedAt : Nat
deriving DecidableEq, Repr

/-- Fresh breaker as loaded from an empty store:
`(CircuitState.CLOSED, 0, 0.0)`. -/
def Circuit.fresh : Circuit := ⟨.closed, 0, 0⟩

inductive CallOutcome
  | rejected   -- CircuitOpenError raised; wrapped function not invoked
  | succeeded  -- wrapped function invoked, returned normally
  | failed     -- wrapped function invoked, raised; exception re-raised
deriving DecidableEq, Repr

/-- `CircuitBreaker._check_and_transition_state`. -/
def checkAndTransitionState (cfg : CBConfig) (cb : Circuit) (now : Nat) :
    Circuit :=
  if cb.state = .opened ∧ cb.openedAt + cfg.cbCooldownSec ≤ now then
    { state := .halfOpen, failures := 0, openedAt := cb.openedAt }
  else cb

/-- `CircuitBreaker._on_failure`. -/
def onFailure (cfg : CBConfig) (cb : Circuit) (now : Nat) : Circuit :=
  let f := cb.failures + 1
  if cb.state = .halfOpen ∨ cfg.cbFailureThreshold ≤ f then
    if cb.state ≠ .opened then { state := .opened, failures := f, openedAt := now }
    else { cb with failures := f }
  else { cb with failures := f }

/-- `CircuitBreaker._on_success`. -/
def onSuccess : Circuit := { state := .closed, failures := 0, openedAt := 0 }

/-- `CircuitBreaker.call`. -/
def circuitCall (cfg : CBConfig) (cb : Circuit) (now : Nat) (succeeds : Bool) :
    CallOutcome × Circuit :=
  let cb1 := checkAndTransitionState cfg cb now
  if cb1.state = .opened then (.rejected, cb1)
  else if succeeds then (.succeeded, onSuccess)
  else (.failed, onFailure cfg cb1 now)

/-- `k` consecutive failing calls starting from a fresh (CLOSED, 0 failures)
breaker, all at time `now`. -/
def failCalls (cfg : CBConfig) (now : Nat) : Nat → Circuit
  | 0 => Circuit.fresh
  | k + 1 => (circuitCall cfg (failCalls cfg now k) now false).2

theorem failCalls_lt (cfg : CBConfig) (now : Nat) :
    ∀ k, k < cfg.cbFailureThreshold →
      failCalls cfg now k = ⟨.closed, k, 0⟩ := by
  intro k
  induction k with
  | zero => intro _; rfl
  | succ n ih =>
    intro hk
    have hprev := ih (by omega)
    simp only [failCalls, hprev, circuitCall, checkAndTransitionState,
      onFailure, onSuccess]
    split_ifs with h1 h2 h3 h4 <;> simp_all <;> omega

/-- C2: the circuit-breaker transition law.  Starting CLOSED with 0 failures:
after exactly `failure_threshold` consecutive failing calls the state is
OPEN (and strictly fewer leave it CLOSED); while OPEN, a call before
`cooldown_seconds` have elapsed since `opened_at` is rejected without
invoking the wrapped function and leaves the state unchanged; a call at or
after cooldown first transitions to HALF_OPEN with the failure count reset
to 0 and is not rejected; a successful HALF_OPEN call yields CLOSED with 0
failures; a failing HALF_OPEN call yields OPEN with `opened_at` set to the
failure time. -/
theorem circuit_breaker_transitions (cfg : CBConfig) (now : Nat)
    (hT : 1 ≤ cfg.cbFailureThreshold) :
    ((failCalls cfg now cfg.cbFailureThreshold).state = .opened ∧
     (failCalls cfg now cfg.cbFailureThreshold).openedAt = now ∧
     ∀ k < cfg.cbFailureThreshold, (failCalls cfg now k).state = .closed) ∧
    (∀ cb now' s, cb.state = .opened →
      now' < cb.openedAt + cfg.cbCooldownSec →
      circuitCall cfg cb now' s = (.rejected, cb)) ∧
    (∀ cb now', cb.state = .opened →
      cb.openedAt + cfg.cbCooldownSec ≤ now' →
      checkAndTransitionState cfg cb now' = ⟨.halfOpen, 0, cb.openedAt⟩ ∧
      ∀ s, (circuitCall cfg cb now' s).1 ≠ .rejected) ∧
    (∀ cb now', cb.state = .halfOpen →
      circuitCall cfg cb now' true = (.succeeded, ⟨.closed, 0, 0⟩)) ∧
    (∀ cb now', cb.state = .halfOpen →
      (circuitCall cfg cb now' false).1 = .failed ∧
      ((circuitCall cfg cb now' false).2).state = .opened ∧
      ((circuitCall cfg cb now' false).2).openedAt = now') := by
  refine ⟨⟨?_, ?_, ?_⟩, ?_, ?_, ?_, ?_⟩
  · obtain ⟨m, hm⟩ : ∃ m, cfg.cbFailureThreshold = m + 1 :=
      ⟨cfg.cbFailureThreshold - 1, by omega⟩
    rw [hm]
    have h := failCalls_lt cfg now m (by omega)
    simp only [failCalls, h, circuitCall, checkAndTransitionState, onFailure,
      onSuccess]
    split_ifs with h1 h2 h3 h4 <;> simp_all <;> omega
  · obtain ⟨m, hm⟩ : ∃ m, cfg.cbFailureThreshold = m + 1 :=
      ⟨cfg.cbFailureThreshold - 1, by omega⟩
    rw [hm]
    have h := failCalls_lt cfg now m (by omega)
    simp only [failCalls, h, circuitCall, checkAndTransitionState, onFailure,
      onSuccess]
    split_ifs with h1 h2 h3 h4 <;> simp_all <;> omega
  · intro k hk
    rw [failCalls_lt cfg now k hk]
  · intro cb now' s hst hlt
    have h1 : checkAndTransitionState cfg cb now' = cb := by
      unfold checkAndTransitionState
      rw [if_neg]
      intro h
      omega
    simp only [circuitCall, h1, if_pos hst]
  · intro cb now' hst hge
    have h1 : checkAndTransitionState cfg cb now' =
        ⟨.halfOpen, 0, cb.openedAt⟩ := by
      unfold checkAndTransitionState
      rw [if_pos ⟨hst, hge⟩]
    refine ⟨h1, ?_⟩
    intro s
    cases s <;> simp [circuitCall, h1]
  · intro cb now' hst
    have h1 : checkAndTransitionState cfg cb now' = cb := by
      unfold checkAndTransitionState
      rw [if_neg]
      intro h
      rw [hst] at h
      exact absurd h.1 (by simp)
    simp [circuitCall, h1, hst, onSuccess]
  · intro cb now' hst
    have h1 : checkAndTransitionState cfg cb now' = cb := by
      unfold checkAndTransitionState
      rw [if_neg]
      intro h
      rw [hst] at h
      exact absurd h.1 (by simp)
    simp [circuitCall, h1, hst, onFailure]

/-- Witness for C2 at threshold 3, cooldown 60, `now = 100`. -/
theorem circuit_breaker_transitions_witness :
    (1 : Nat) ≤ (CBConfig.mk 3 60).cbFailureThreshold ∧
    (((failCalls ⟨3, 60⟩ 100 3).state = .opened ∧
      (failCalls ⟨3, 60⟩ 100 3).openedAt = 100 ∧
      ∀ k < 3, (failCalls ⟨3, 60⟩ 100 k).state = .closed) ∧
    (∀ cb now' s, cb.state = .opened → now' < cb.openedAt + 60 →
      circuitCall ⟨3, 60⟩ cb now' s = (.rejected, cb)) ∧
    (∀ cb now', cb.state = .opened → cb.openedAt + 60 ≤ now' →
      checkAndTransitionState ⟨3, 60⟩ cb now' = ⟨.halfOpen, 0, cb.openedAt⟩ ∧
      ∀ s, (circuitCall ⟨3, 60⟩ cb now' s).1 ≠ .rejected) ∧
    (∀ cb now', cb.state = .halfOpen →
      circuitCall ⟨3, 60⟩ cb now' true = (.succeeded, ⟨.closed, 0, 0⟩)) ∧
    (∀ cb now', cb.state = .halfOpen →
      (circuitCall ⟨3, 60⟩ cb now' false).1 = .failed ∧
      ((circuitCall ⟨3, 60⟩ cb now' false).2).state = .opened ∧
      ((circuitCall ⟨3, 60⟩ cb now' false).2).openedAt = now')) :=
  ⟨by decide, circuit_breaker_transitions ⟨3, 60⟩ 100 (by decide)⟩

/-! ### `rate_limiter.RateLimitCoordinator`

The token bucket holds `capacity = 5000 - rate_limit_buffer` (an integer)
and a float token count; floats are modelled as rationals (all quantities
involved — integers, and sums of `capacity / 3600` — are exact).  A blocked
`acquire()` (the polling loop) is modelled as `tryAcquire = none`; one
iteration of the `_refill_daemon` loop (one elapsed second) is
`refillStep`. -/

structure TokenBucket where
  capacity : ℚ
  tokens : ℚ
deriving DecidableEq, Repr

/-- The bucket as built by `RateLimitCoordinator.__init__` for an integer
capacity `c` (`_capacity = 5000 - buffer`, `_tokens = float(_capacity)`). -/
def bucketInit (c : Nat) : TokenBucket := ⟨(c : ℚ), (c : ℚ)⟩

/-- One `acquire()` attempt: `none` means no token is available and the
caller keeps blocking. -/
def tryAcquire (b : TokenBucket) : Option TokenBucket :=
  if 1 ≤ b.tokens then some { b with tokens := b.tokens - 1 } else none

/-- One iteration (one second) of `_refill_daemon`:
`tokens = min(capacity, tokens + capacity / 3600)`. -/
def refillStep (b : TokenBucket) : TokenBucket :=
  { b with tokens := min b.capacity (b.tokens + b.capacity / 3600) }

/-- `k` consecutive successful `acquire()` calls. -/
def acquireN (b : TokenBucket) : Nat → Option TokenBucket
  | 0 => some b
  | k + 1 => (acquireN b k).bind tryAcquire

/-- `k` refill seconds. -/
def refillN (b : TokenBucket) : Nat → TokenBucket
  | 0 => b
  | k + 1 => refillStep (refillN b k)

theorem acquireN_full (C : Nat) :
    ∀ k, k ≤ C → acquireN (bucketInit C) k = some ⟨(C : ℚ), (C : ℚ) - k⟩ := by
  intro k
  induction k with
  | zero => intro _; simp [acquireN, bucketInit]
  | succ n ih =>
    intro hk
    rw [acquireN, ih (by omega)]
    have h1 : (1 : ℚ) ≤ (C : ℚ) - n := by
      have : (n : ℚ) + 1 ≤ (C : ℚ) := by exact_mod_cast hk
      linarith
    simp only [Option.some_bind, tryAcquire, if_pos h1]
    have h2 : (C : ℚ) - (n : ℚ) - 1 = (C : ℚ) - ((n + 1 : Nat) : ℚ) := by
      push_cast
      ring
    rw [h2]

theorem refillN_from_empty (C : Nat) :
    ∀ k, (refillN ⟨(C : ℚ), 0⟩ k).capacity = (C : ℚ) ∧
      (refillN ⟨(C : ℚ), 0⟩ k).tokens =
        min (C : ℚ) (k * ((C : ℚ) / 3600)) := by
  intro k
  induction k with
  | zero =>
    refine ⟨rfl, ?_⟩
    show (0 : ℚ) = min (C : ℚ) (((0 : Nat) : ℚ) * ((C : ℚ) / 3600))
    rw [Nat.cast_zero, zero_mul, min_eq_right (by positivity)]
  | succ n ih =>
    obtain ⟨hc, ht⟩ := ih
    constructor
    · show (refillN ⟨(C : ℚ), 0⟩ n).capacity = (C : ℚ)
      exact hc
    · show min (refillN ⟨(C : ℚ), 0⟩ n).capacity
          ((refillN ⟨(C : ℚ), 0⟩ n).tokens +
            (refillN ⟨(C : ℚ), 0⟩ n).capacity / 3600) =
          min (C : ℚ) (((n + 1 : Nat) : ℚ) * ((C : ℚ) / 3600))
      rw [hc, ht]
      rcases le_total ((n : ℚ) * ((C : ℚ) / 3600)) (C : ℚ) with h | h
      · rw [min_eq_right h]
        have : (((n + 1 : Nat) : ℚ)) * ((C : ℚ) / 3600) =
            (n : ℚ) * ((C : ℚ) / 3600) + (C : ℚ) / 3600 := by
          push_cast
          ring
        rw [this]
      · have h0 : (0 : ℚ) ≤ (C : ℚ) / 3600 := by positivity
        rw [min_eq_left h]
        rw [min_eq_left (by linarith), min_eq_left]
        have : ((n : ℚ)) * ((C : ℚ) / 3600) ≤
            (((n + 1 : Nat) : ℚ)) * ((C : ℚ) / 3600) := by
          push_cast
          nlinarith
        linarith

/-- C9: with capacity `C`, starting from a full bucket exactly `C`
`acquire()` calls succeed before any refill (the `(C+1)`-th blocks); each
refill second adds `C/3600` tokens (clamped at `C`), so that after `k`
seconds with `k·C ≥ 3600` (i.e. `k ≥ 3600 / C`) at least one more token is
available; and both `acquire` and refill preserve
`0 ≤ tokens ≤ capacity`. -/
theorem rate_limiter_token_bucket (C : Nat) (hC : 1 ≤ C) :
    acquireN (bucketInit C) C = some ⟨(C : ℚ), 0⟩ ∧
    acquireN (bucketInit C) (C + 1) = none ∧
    (∀ k, (refillN ⟨(C : ℚ), 0⟩ k).tokens =
      min (C : ℚ) (k * ((C : ℚ) / 3600))) ∧
    (∀ k, 3600 ≤ k * C →
      (tryAcquire (refillN ⟨(C : ℚ), 0⟩ k)).isSome = true) ∧
    (∀ b b', 0 ≤ b.tokens → b.tokens ≤ b.capacity →
      tryAcquire b = some b' → 0 ≤ b'.tokens ∧ b'.tokens ≤ b'.capacity) ∧
    (∀ b, 0 ≤ b.tokens → b.tokens ≤ b.capacity →
      0 ≤ (refillStep b).tokens ∧
      (refillStep b).tokens ≤ (refillStep b).capacity) := by
  have hfull : acquireN (bucketInit C) C = some ⟨(C : ℚ), 0⟩ := by
    have h := acquireN_full C C (Nat.le_refl C)
    rw [h, sub_self]
  refine ⟨hfull, ?_, ?_, ?_, ?_, ?_⟩
  · rw [acquireN, hfull]
    simp only [Option.some_bind, tryAcquire]
    rw [if_neg]
    norm_num
  · intro k
    exact (refillN_from_empty C k).2
  · intro k hk
    have ht := (refillN_from_empty C k).2
    have h1 : (1 : ℚ) ≤ (refillN ⟨(C : ℚ), 0⟩ k).tokens := by
      rw [ht]
      refine le_min ?_ ?_
      · exact_mod_cast hC
      · have h3600 : ((3600 : ℚ)) ≤ (k : ℚ) * (C : ℚ) := by
          exact_mod_cast hk
        rw [mul_div_assoc']
        rw [le_div_iff (by norm_num)]
        linarith
    unfold tryAcquire
    rw [if_pos h1]
    rfl
  · intro b b' h0 hcap h
    unfold tryAcquire at h
    by_cases h1 : 1 ≤ b.tokens
    · rw [if_pos h1] at h
      cases h
      constructor
      · show (0 : ℚ) ≤ b.tokens - 1
        linarith
      · show b.tokens - 1 ≤ b.capacity
        linarith
    · rw [if_neg h1] at h
      cases h
  · intro b h0 hcap
    have hc0 : (0 : ℚ) ≤ b.capacity := le_trans h0 hcap
    constructor
    · show (0 : ℚ) ≤ min b.capacity (b.tokens + b.capacity / 3600)
      refine le_min hc0 ?_
      have : (0 : ℚ) ≤ b.capacity / 3600 := by positivity
      linarith
    · show min b.capacity (b.tokens + b.capacity / 3600) ≤ b.capacity
      exact min_le_left _ _

/-- Witness for C9 at capacity 100 (e.g. 36 refill seconds satisfy
`36 · 100 ≥ 3600`). -/
theorem rate_limiter_token_bucket_witness :
    (1 : Nat) ≤ 100 ∧
    (acquireN (bucketInit 100) 100 = some ⟨(100 : ℚ), 0⟩ ∧
    acquireN (bucketInit 100) (100 + 1) = none ∧
    (∀ k, (refillN ⟨(100 : ℚ), 0⟩ k).tokens =
      min (100 : ℚ) (k * ((100 : ℚ) / 3600))) ∧
    (∀ k, 3600 ≤ k * 100 →
      (tryAcquire (refillN ⟨(100 : ℚ), 0⟩ k)).isSome = true) ∧
    (∀ b b', 0 ≤ b.tokens → b.tokens ≤ b.capacity →
      tryAcquire b = some b' → 0 ≤ b'.tokens ∧ b'.tokens ≤ b'.capacity) ∧
    (∀ b, 0 ≤ b.tokens → b.tokens ≤ b.capacity →
      0 ≤ (refillStep b).tokens ∧
      (refillStep b).tokens ≤ (refillStep b).capacity)) :=
  ⟨by decide, rate_limiter_token_bucket 100 (by decide)⟩

/-! ### Stable sorting

Python's `list.sort(key=k, reverse=True)` is a stable sort: the output is
the unique reordering in which `a` precedes `b` iff `k a > k b`, or
`k a = k b` and `a` preceded `b` in the input.  Insertion sort with the
stop-condition `le x y` ("x may sit before y"; ties resolve in favour of
the earlier element `x`) realizes exactly that semantics, so it is an
input/output-faithful embedding of the sort call. -/

def insertStable (le : α → α → Bool) (x : α) : List α → List α
  | [] => [x]
  | y :: ys => if le x y then x :: y :: ys else y :: insertStable le x ys

def stableSort (le : α → α → Bool) : List α → List α
  | [] => []
  | x :: xs => insertStable le x (stableSort le xs)

theorem insertStable_perm (le : α → α → Bool) (x : α) :
    ∀ l : List α, (insertStable le x l).Perm (x :: l) := by
  intro l
  induction l with
  | nil => exact List.Perm.refl _
  | cons y ys ih =>
    by_cases h : le x y
    · rw [insertStable, if_pos h]
    · rw [insertStable, if_neg h]
      exact (ih.cons y).trans (List.Perm.swap x y ys)

theorem stableSort_perm (le : α → α → Bool) :
    ∀ l : List α, (stableSort le l).Perm l := by
  intro l
  induction l with
  | nil => exact List.Perm.refl _
  | cons x xs ih =>
    exact (insertStable_perm le x (stableSort le xs)).trans (ih.cons x)

theorem insertStable_pairwise (le : α → α → Bool)
    (htot : ∀ a b, le a b = true ∨ le b a = true)
    (htrans : ∀ a b c, le a b = true → le b c = true → le a c = true)
    (x : α) :
    ∀ l : List α, l.Pairwise (fun a b => le a b = true) →
      (insertStable le x l).Pairwise (fun a b => le a b = true) := by
  intro l
  induction l with
  | nil => intro _; simp [insertStable]
  | cons y ys ih =>
    intro h
    rcases List.pairwise_cons.mp h with ⟨hy, hys⟩
    by_cases hxy : le x y
    · rw [insertStable, if_pos hxy]
      refine List.pairwise_cons.mpr ⟨?_, h⟩
      intro z hz
      rcases List.mem_cons.mp hz with rfl | hz
      · exact hxy
      · exact htrans x y z hxy (hy z hz)
    · rw [insertStable, if_neg hxy]
      refine List.pairwise_cons.mpr ⟨?_, ih hys⟩
      intro z hz
      have hz' := (insertStable_perm le x ys).mem_iff.mp hz
      rcases List.mem_cons.mp hz' with rfl | hz'
      · rcases htot y z with h' | h'
        · exact h'
        · exact absurd h' (by simpa using hxy)
      · exact hy z hz'

theorem stableSort_pairwise (le : α → α → Bool)
    (htot : ∀ a b, le a b = true ∨ le b a = true)
    (htrans : ∀ a b c, le a b = true → le b c = true → le a c = true) :
    ∀ l : List α,
      (stableSort le l).Pairwise (fun a b => le a b = true) := by
  intro l
  induction l with
  | nil => simp [stableSort]
  | cons x xs ih => exact insertStable_pairwise le htot htrans x _ ih

theorem insertStable_filter_pos (le : α → α → Bool) (p : α → Bool)
    (hp : ∀ a b, p a = true → p b = true → le a b = true)
    (x : α) (hx : p x = true) :
    ∀ l : List α,
      (insertStable le x l).filter p = x :: l.filter p := by
  intro l
  induction l with
  | nil => simp [insertStable, hx]
  | cons y ys ih =>
    by_cases hxy : le x y
    · rw [insertStable, if_pos hxy, List.filter_cons_of_pos hx]
    · rw [insertStable, if_neg hxy]
      have hy : p y = false := by
        by_contra hcon
        exact hxy (hp x y hx (by simpa using hcon))
      rw [List.filter_cons_of_neg (by simp [hy]), ih,
        List.filter_cons_of_neg (by simp [hy])]

theorem insertStable_filter_neg (le : α → α → Bool) (p : α → Bool)
    (x : α) (hx : p x = false) :
    ∀ l : List α, (insertStable le x l).filter p = l.filter p := by
  intro l
  induction l with
  | nil => simp [insertStable, hx]
  | cons y ys ih =>
    by_cases hxy : le x y
    · rw [insertStable, if_pos hxy, List.filter_cons_of_neg (by simp [hx])]
    · rw [insertStable, if_neg hxy]
      cases hy : p y with
      | true =>
        rw [List.filter_cons_of_pos hy, ih, List.filter_cons_of_pos hy]
      | false =>
        rw [List.filter_cons_of_neg (by simp [hy]), ih,
          List.filter_cons_of_neg (by simp [hy])]

theorem stableSort_filter (le : α → α → Bool) (p : α → Bool)
    (hp : ∀ a b, p a = true → p b = true → le a b = true) :
    ∀ l : List α, (stableSort le l).filter p = l.filter p := by
  intro l
  induction l with
  | nil => rfl
  | cons x xs ih =>
    cases hx : p x with
    | true =>
      rw [stableSort, insertStable_filter_pos le p hp x hx, ih,
        List.filter_cons_of_pos hx]
    | false =>
      rw [stableSort, insertStable_filter_neg le p x hx, ih,
        List.filter_cons_of_neg (by simp [hx])]

/-! ### `chunking.aggregate_chunk_results`

A commit record is abstracted to its parsed `commit_date` (the only field
the aggregation inspects), an opaque payload standing for all other keys,
and the `_chunk_index` key that aggregation adds.  `commitDate = some t`
models a `commit_date` string that `datetime.fromisoformat` parses to the
instant `t` (seconds relative to the epoch); `none` models a missing or
unparsable date.  The sort key of line 129-136 maps an unparsable date to
`datetime.fromtimestamp(0, utc)`, i.e. to the epoch instant `0`. -/

structure Commit where
  commitDate : Option Int
  payload : Nat
  chunkIndex : Option Nat := none
deriving DecidableEq, Repr

/-- `get_sort_key` (`chunking.py` lines 129-136). -/
def commitSortKey (c : Commit) : Int := c.commitDate.getD 0

/-- Comparator realizing `sort(key=get_sort_key, reverse=True)`. -/
def commitLe (a b : Commit) : Bool := decide (commitSortKey b ≤ commitSortKey a)

/-- Ascending comparator realizing `sorted(chunk_results.keys())`. -/
def pairLe (p q : Nat × List Commit) : Bool := decide (p.1 ≤ q.1)

/-- `commit_with_chunk = commit.copy(); commit_with_chunk['_chunk_index'] = i`. -/
def annotateChunk (i : Nat) (c : Commit) : Commit := { c with chunkIndex := some i }

/-- The collection loop of `aggregate_chunk_results` (lines 118-125):
chunks in ascending index order, each chunk's commits annotated with their
chunk index, in encounter order. -/
def collectChunkCommits (chunkResults : List (Nat × List Commit)) :
    List Commit :=
  (stableSort pairLe chunkResults).bind (fun p => p.2.map (annotateChunk p.1))

/-- `aggregate_chunk_results` (the dict is modelled as an association
list). -/
def aggregateChunkResults (chunkResults : List (Nat × List Commit)) :
    List Commit :=
  stableSort commitLe (collectChunkCommits chunkResults)

/-- The ordering property claimed for `aggregate_chunk_results`: items with
parsable timestamps strictly descending by timestamp, and every item with
a missing/unparsable timestamp after all parsably-timestamped items. -/
def claimedAggregateOrdering (l : List Commit) : Prop :=
  l.Pairwise (fun a b =>
    ∀ ta tb, a.commitDate = some ta → b.commitDate = some tb → tb < ta) ∧
  l.Pairwise (fun a b => a.commitDate = none → b.commitDate = none)

/-- C6 counterexample: on the single-chunk input holding (in this
encounter order) a date-less commit, a commit dated exactly at the epoch,
and two commits sharing the timestamp 100, the aggregated output violates
the claimed ordering: the two equal-timestamp commits are not strictly
descending (and the date-less commit also precedes the epoch-dated one). -/
theorem aggregate_ordering_counterexample :
    ¬ claimedAggregateOrdering (aggregateChunkResults
      [(0, [⟨none, 0, none⟩, ⟨some 0, 1, none⟩,
            ⟨some 100, 2, none⟩, ⟨some 100, 3, none⟩])]) := by
  intro h
  have hc : aggregateChunkResults
      [(0, [⟨none, 0, none⟩, ⟨some 0, 1, none⟩,
            ⟨some 100, 2, none⟩, ⟨some 100, 3, none⟩])] =
      [⟨some 100, 2, some 0⟩, ⟨some 100, 3, some 0⟩,
       ⟨none, 0, some 0⟩, ⟨some 0, 1, some 0⟩] := by decide
  rw [hc] at h
  rcases h with ⟨h1, _⟩
  rcases List.pairwise_cons.mp h1 with ⟨hrel, _⟩
  have := hrel ⟨some 100, 3, some 0⟩ (by simp) 100 100 rfl rfl
  omega

/-- C6 (amended): `aggregate_chunk_results` sorts the collected, chunk-index
annotated items descending (not strictly) by effective timestamp, where a
missing/unparsable timestamp is treated as the epoch; the output is a
permutation of the collected items; items with equal effective timestamps —
in particular the missing/unparsable ones among themselves — keep their
encounter order; and every missing/unparsable-dated item comes after every
item dated strictly after the epoch. -/
theorem aggregate_chunk_results_ordering
    (chunkResults : List (Nat × List Commit)) :
    (aggregateChunkResults chunkResults).Pairwise
        (fun a b => commitSortKey b ≤ commitSortKey a) ∧
    (aggregateChunkResults chunkResults).Perm
        (collectChunkCommits chunkResults) ∧
    (∀ k : Int, (aggregateChunkResults chunkResults).filter
          (fun c => commitSortKey c == k) =
        (collectChunkCommits chunkResults).filter
          (fun c => commitSortKey c == k)) ∧
    ((aggregateChunkResults chunkResults).filter
          (fun c => c.commitDate.isNone) =
        (collectChunkCommits chunkResults).filter
          (fun c => c.commitDate.isNone)) ∧
    (aggregateChunkResults chunkResults).Pairwise
        (fun a b => a.commitDate = none → commitSortKey b ≤ 0) := by
  have htot : ∀ a b : Commit, commitLe a b = true ∨ commitLe b a = true := by
    intro a b
    unfold commitLe
    rcases le_total (commitSortKey b) (commitSortKey a) with h | h
    · left; exact decide_eq_true h
    · right; exact decide_eq_true h
  have htrans : ∀ a b c : Commit, commitLe a b = true → commitLe b c = true →
      commitLe a c = true := by
    intro a b c hab hbc
    unfold commitLe at *
    exact decide_eq_true (le_trans (of_decide_eq_true hbc)
      (of_decide_eq_true hab))
  have hpair := stableSort_pairwise commitLe htot htrans
    (collectChunkCommits chunkResults)
  have hdesc : (aggregateChunkResults chunkResults).Pairwise
      (fun a b => commitSortKey b ≤ commitSortKey a) :=
    hpair.imp (fun h => of_decide_eq_true h)
  refine ⟨hdesc, ?_, ?_, ?_, ?_⟩
  · exact stableSort_perm commitLe _
  · intro k
    refine stableSort_filter commitLe _ ?_ _
    intro a b ha hb
    have ha' : commitSortKey a = k := by
      have := of_decide_eq_true ha
      exact this
    have hb' : commitSortKey b = k := by
      have := of_decide_eq_true hb
      exact this
    exact decide_eq_true (by rw [ha', hb'])
  · refine stableSort_filter commitLe _ ?_ _
    intro a b ha hb
    have ha' : commitSortKey a = 0 := by
      unfold commitSortKey
      cases hda : a.commitDate with
      | none => rfl
      | some t => rw [hda] at ha; simp [Option.isNone] at ha
    have hb' : commitSortKey b = 0 := by
      unfold commitSortKey
      cases hdb : b.commitDate with
      | none => rfl
      | some t => rw [hdb] at hb; simp [Option.isNone] at hb
    exact decide_eq_true (by rw [ha', hb'])
  · refine hdesc.imp ?_
    intro a b h hnone
    have ha : commitSortKey a = 0 := by
      unfold commitSortKey
      rw [hnone]
      rfl
    omega

/-! ### `state.StateManager`

The two SQLite tables are modelled as row lists; `UPDATE ... WHERE`
(`update_repository_progress`) maps the update over all matching rows (and
over none when no row matches — SQLite raises no error in that case),
`INSERT` appends.  `datetime.now().isoformat()` timestamps are modelled by
a world clock (their values are never compared by the modelled code).
Descriptor columns of `operations` that the modelled operations never read
or write (`operation_type`, `user`, `since`, `until`, the filters,
`created_at`, `metadata`) are elided. -/

structure RepoRow where
  operationId : String
  repositoryName : String
  status : String
  startedAt : Option Nat := none
  completedAt : Option Nat := none
  commitCount : Nat := 0
  chunkCount : Nat := 0
  completedChunks : Nat := 0
  errorMessage : Option String := none
  retryCount : Nat := 0
deriving DecidableEq, Repr

structure OpRow where
  id : String
  status : String
  startedAt : Option Nat := none
  completedAt : Option Nat := none
  errorMessage : Option String := none
  totalRepositories : Nat := 0
  completedRepositories : Nat := 0
  totalCommits : Nat := 0
deriving DecidableEq, Repr

/-- Key of a chunk-state cache entry
(`get_chunk_state_key(repo, since, until, author)`; the Python code builds
an injective string from this tuple). -/
structure ChunkKey where
  repo : String
  since : Nat
  until_ : Nat
  author : Option String
deriving DecidableEq, Repr

/-- Mirror of the `ChunkState` dataclass (`chunking.py`). -/
structure ChunkStateR where
  chunkIndex : Nat
  status : String
  startTime : Option Nat := none
  endTime : Option Nat := none
  commitCount : Nat := 0
  errorMessage : Option String := none
deriving DecidableEq, Repr

/-- One chunk-state cache entry: the `chunks` and `chunk_results` dicts of
`save_chunk_state`/`load_chunk_state`, as association lists keyed by chunk
index. -/
structure ChunkEntry where
  states : List (Nat × ChunkStateR)
  results : List (Nat × List Commit)
deriving DecidableEq, Repr

def ChunkEntry.empty : ChunkEntry := ⟨[], []⟩

/-- Dict lookup. -/
def assocGet [DecidableEq κ] (k : κ) : List (κ × α) → Option α
  | [] => none
  | (k', v) :: rest => if k = k' then some v else assocGet k rest

/-- Dict assignment `d[k] = v`. -/
def assocSet [DecidableEq κ] (k : κ) (v : α) : List (κ × α) → List (κ × α)
  | [] => [(k, v)]
  | (k', v') :: rest =>
    if k = k' then (k, v) :: rest else (k', v') :: assocSet k v rest

/-- The mutable state visible to the orchestration: the chunk-state cache,
the two SQLite tables, the log of calls made to the external fetch
function, and a clock standing for `datetime.now()`/`time.time()`. -/
structure World where
  chunkCache : List (ChunkKey × ChunkEntry)
  repoTable : List RepoRow
  opsTable : List OpRow
  fetchLog : List (String × Nat × Nat)
  clock : Nat
deriving DecidableEq, Repr

/-- Effect of one `update_repository_progress` call on one matching row
(`state.py` lines 328-364): status always set; timestamps by status;
optional counters; and — the detail C5 is about — `retry_count` is
incremented exactly when an `error_message` is supplied. -/
def applyRepoProgressUpdate (now : Nat) (status : String)
    (commitCount chunkCount completedChunks : Option Nat)
    (errorMessage : Option String) (r : RepoRow) : RepoRow :=
  let r1 := { r with status := status }
  let r2 :=
    if status = "in_progress" then { r1 with startedAt := some now }
    else if status = "completed" ∨ status = "failed" ∨ status = "skipped"
      then { r1 with completedAt := some now }
    else r1
  let r3 := match commitCount with
    | some n => { r2 with commitCount := n }
    | none => r2
  let r4 := match chunkCount with
    | some n => { r3 with chunkCount := n }
    | none => r3
  let r5 := match completedChunks with
    | some n => { r4 with completedChunks := n }
    | none => r4
  match errorMessage with
  | some e => { r5 with errorMessage := some e, retryCount := r5.retryCount + 1 }
  | none => r5

/-- `SELECT COALESCE(SUM(commit_count), 0) FROM repository_progress WHERE
operation_id = ?`. -/
def sumCommitCounts (opId : String) (rows : List RepoRow) : Nat :=
  List.foldl (fun acc r => acc + r.commitCount) 0
    (rows.filter fun r => r.operationId = opId)

/-- `SELECT COUNT(*) FROM repository_progress WHERE operation_id = ? AND
status IN ('completed', 'skipped')`. -/
def countCompletedRows (opId : String) (rows : List RepoRow) : Nat :=
  (rows.filter fun r => r.operationId = opId ∧
    (r.status = "completed" ∨ r.status = "skipped")).length

/-- `StateManager.update_repository_progress` (`state.py` lines 307-390):
the row update plus the operation-level recomputations of
`completed_repositories` and `total_commits`. -/
def updateRepositoryProgress (opId name status : String)
    (commitCount chunkCount completedChunks : Option Nat)
    (errorMessage : Option String) (w : World) : World :=
  let repoTable := w.repoTable.map fun r =>
    if r.operationId = opId ∧ r.repositoryName = name then
      applyRepoProgressUpdate w.clock status commitCount chunkCount
        completedChunks errorMessage r
    else r
  let opsTable1 :=
    if status = "completed" ∨ status = "skipped" then
      w.opsTable.map fun o =>
        if o.id = opId then
          { o with completedRepositories := countCompletedRows opId repoTable }
        else o
    else w.opsTable
  let opsTable2 :=
    if commitCount.isSome then
      opsTable1.map fun o =>
        if o.id = opId then
          { o with totalCommits := sumCommitCounts opId repoTable }
        else o
    else opsTable1
  { w with
    repoTable := repoTable
    opsTable := opsTable2
    clock := w.clock + 1 }

/-- `StateManager.add_repositories_to_operation` (`state.py` lines
283-305): unconditional bulk INSERT of fresh `pending` rows (the table has
no uniqueness constraint on `(operation_id, repository_name)`, so repeated
calls insert duplicate rows) plus `total_repositories` update. -/
def addRepositoriesToOperation (opId : String) (repos : List String)
    (w : World) : World :=
  { w with
    repoTable := w.repoTable ++ repos.map fun n =>
      { operationId := opId, repositoryName := n, status := "pending" },
    opsTable := w.opsTable.map fun o =>
      if o.id = opId then { o with totalRepositories := repos.length } else o }

/-- `StateManager.update_operation_status` (`state.py` lines 235-281). -/
def updateOperationStatus (opId status : String) (errorMessage : Option String)
    (totalRepositories totalCommits : Option Nat) (w : World) : World :=
  { w with
    opsTable := w.opsTable.map fun o =>
      if o.id = opId then
        let o1 := { o with status := status }
        let o2 :=
          if status = "in_progress" then { o1 with startedAt := some w.clock }
          else if status = "completed" ∨ status = "failed" then
            { o1 with completedAt := some w.clock }
          else o1
        let o3 := match errorMessage with
          | some e => { o2 with errorMessage := some e }
          | none => o2
        let o4 := match totalRepositories with
          | some n => { o3 with totalRepositories := n }
          | none => o3
        match totalCommits with
        | some n => { o4 with totalCommits := n }
        | none => o4
      else o,
    clock := w.clock + 1 }

/-- `StateManager.get_pending_repositories` (`state.py` lines 392-408):
names of rows whose status is `pending`, `in_progress` or `failed`,
ordered by repository name. -/
def getPendingRepositories (opId : String) (w : World) : List String :=
  stableSort (fun a b => decide (a ≤ b))
    ((w.repoTable.filter fun r => r.operationId = opId ∧
        (r.status = "pending" ∨ r.status = "in_progress" ∨
          r.status = "failed")).map fun r => r.repositoryName)

/-- The law claimed for `retry_count`: an `update_repository_progress` call
increments it on a row iff the call sets the row's status to `failed`. -/
def claimedRetryCountLaw : Prop :=
  ∀ (now : Nat) (status : String)
    (commitCount chunkCount completedChunks : Option Nat)
    (errorMessage : Option String) (r : RepoRow),
    ((applyRepoProgressUpdate now status commitCount chunkCount
        completedChunks errorMessage r).retryCount = r.retryCount + 1 ↔
      status = "failed")

/-- C5 counterexample: updating a `pending` row to status `failed` without
an `error_message` does not increment `retry_count`, contradicting the
claimed law. -/
theorem retry_count_counterexample : ¬ claimedRetryCountLaw := by
  intro h
  have h2 := (h 0 "failed" none none none none
    ⟨"op", "repo", "pending", none, none, 0, 0, 0, none, 0⟩).mpr rfl
  exact absurd h2 (by decide)

/-- C5 (amended): `update_repository_progress` increments `retry_count` on
a matched row exactly when the call supplies an `error_message`; the new
status value is irrelevant (in particular, a transition into `failed`
without an error message leaves `retry_count` unchanged, and a non-`failed`
update with an error message increments it). -/
theorem retry_count_increments_iff_error (now : Nat) (status : String)
    (commitCount chunkCount completedChunks : Option Nat)
    (errorMessage : Option String) (r : RepoRow) :
    (applyRepoProgressUpdate now status commitCount chunkCount
        completedChunks errorMessage r).retryCount =
      match errorMessage with
      | some _ => r.retryCount + 1
      | none => r.retryCount := by
  unfold applyRepoProgressUpdate
  rcases commitCount with _ | n1 <;> rcases chunkCount with _ | n2 <;>
    rcases completedChunks with _ | n3 <;> rcases errorMessage with _ | e <;>
    split_ifs <;> rfl

theorem map_if_unmatched {α : Type} (f : α → α) (p : α → Prop)
    [DecidablePred p] :
    ∀ rows : List α, (∀ r ∈ rows, ¬ p r) →
      (rows.map fun r => if p r then f r else r) = rows := by
  intro rows
  induction rows with
  | nil => intro _; rfl
  | cons a l ih =>
    intro h
    simp only [List.map_cons]
    rw [if_neg (h a (List.mem_cons_self a l)),
      ih fun r hr => h r (List.mem_cons_of_mem a hr)]

/-- C10: an `update_repository_progress` call for an
`(operation_id, repository_name)` pair with no row in
`repository_progress` is a silent no-op on that table — the table is
unchanged, no row is ever inserted by an update (the row count is always
preserved), and registration via `add_repositories_to_operation` is what
creates the `pending` row that later updates take effect on. -/
theorem update_repository_progress_unregistered
    (w : World) (opId name status : String)
    (commitCount chunkCount completedChunks : Option Nat)
    (errorMessage : Option String)
    (h : ∀ r ∈ w.repoTable,
      ¬(r.operationId = opId ∧ r.repositoryName = name)) :
    (updateRepositoryProgress opId name status commitCount chunkCount
        completedChunks errorMessage w).repoTable = w.repoTable ∧
    (∀ w' : World, (updateRepositoryProgress opId name status commitCount
        chunkCount completedChunks errorMessage w').repoTable.length =
      w'.repoTable.length) ∧
    (∀ (w' : World) (repos : List String), ∀ n ∈ repos,
      ∃ r ∈ (addRepositoriesToOperation opId repos w').repoTable,
        r.operationId = opId ∧ r.repositoryName = n ∧
          r.status = "pending") := by
  refine ⟨?_, ?_, ?_⟩
  · exact map_if_unmatched _ _ w.repoTable h
  · intro w'
    exact List.length_map _ _
  · intro w' repos n hn
    refine ⟨⟨opId, n, "pending", none, none, 0, 0, 0, none, 0⟩,
      ?_, rfl, rfl, rfl⟩
    exact List.mem_append_right _ (List.mem_map_of_mem _ hn)

/-- Witness for C10: updating `(op2, beta)` in a table holding only an
`(op1, alpha)` row. -/
theorem update_repository_progress_unregistered_witness :
    (∀ r ∈ (World.mk [] [⟨"op1", "alpha", "pending", none, none,
        0, 0, 0, none, 0⟩] [] [] 0).repoTable,
      ¬(r.operationId = "op2" ∧ r.repositoryName = "beta")) ∧
    ((updateRepositoryProgress "op2" "beta" "completed" none none none none
        (World.mk [] [⟨"op1", "alpha", "pending", none, none,
          0, 0, 0, none, 0⟩] [] [] 0)).repoTable =
      (World.mk [] [⟨"op1", "alpha", "pending", none, none,
        0, 0, 0, none, 0⟩] [] [] 0).repoTable ∧
    (∀ w' : World, (updateRepositoryProgress "op2" "beta" "completed" none
        none none none w').repoTable.length = w'.repoTable.length) ∧
    (∀ (w' : World) (repos : List String), ∀ n ∈ repos,
      ∃ r ∈ (addRepositoriesToOperation "op2" repos w').repoTable,
        r.operationId = "op2" ∧ r.repositoryName = n ∧
          r.status = "pending")) :=
  ⟨by decide,
    update_repository_progress_unregistered
      (World.mk [] [⟨"op1", "alpha", "pending", none, none,
        0, 0, 0, none, 0⟩] [] [] 0)
      "op2" "beta" "completed" none none none none (by decide)⟩

/-! ### `chunking` with persisted chunk state

The external collaborator `fetch_repo_commits(repo, since, until, author)`
is a deterministic oracle returning either a commit list or an exception
(`Except.error`).  Each invocation is recorded in the world's `fetchLog`
(used to state "the fetch function is not invoked again"). -/

abbrev Fetch :=
  String → Nat → Nat → Option String → Except String (List Commit)

/-- `get_chunk_state_key` (the Python code builds an injective string from
this tuple). -/
def getChunkStateKey (repo : String) (since untl : Nat)
    (author : Option String) : ChunkKey := ⟨repo, since, untl, author⟩

/-- `load_chunk_state`: missing entry loads as empty dicts. -/
def loadChunkState (k : ChunkKey) (w : World) : ChunkEntry :=
  (assocGet k w.chunkCache).getD ChunkEntry.empty

/-- `save_chunk_state`. -/
def saveChunkState (k : ChunkKey) (e : ChunkEntry) (w : World) : World :=
  { w with chunkCache := assocSet k e w.chunkCache }

/-- One `datetime.now()` observation. -/
def tickClock (w : World) : World := { w with clock := w.clock + 1 }

/-- A call to the external fetch function, recorded in the log. -/
def fetchCall (fetch : Fetch) (repo : String) (since untl : Nat)
    (author : Option String) (w : World) :
    Except String (List Commit) × World :=
  (fetch repo since untl author,
    { w with
      fetchLog := w.fetchLog ++ [(repo, since, untl)]
      clock := w.clock + 1 })

/-- The per-chunk loop of `process_chunks_with_state` (`chunking.py` lines
224-270): skip chunks already `completed`; otherwise persist an
`in_progress` state, invoke the fetch function, and persist a `completed`
(with results) or `failed` state — a chunk failure does not abort later
chunks. -/
def processChunksLoop (fetch : Fetch) (repo : String) (key : ChunkKey)
    (author : Option String) :
    List DateChunk → List (Nat × ChunkStateR) → List (Nat × List Commit) →
      World → List (Nat × ChunkStateR) × List (Nat × List Commit) × World
  | [], states, results, w => (states, results, w)
  | c :: rest, states, results, w =>
    if (assocGet c.index states).map ChunkStateR.status = some "completed"
    then
      processChunksLoop fetch repo key author rest states results w
    else
      let inProg : ChunkStateR :=
        ⟨c.index, "in_progress", some w.clock, none, 0, none⟩
      let states1 := assocSet c.index inProg states
      let w1 := saveChunkState key ⟨states1, results⟩ (tickClock w)
      match fetchCall fetch repo c.since c.until_ author w1 with
      | (Except.ok commits, w2) =>
        let results2 := assocSet c.index commits results
        let done : ChunkStateR :=
          { inProg with
            status := "completed"
            endTime := some w2.clock
            commitCount := commits.length }
        let states2 := assocSet c.index done states1
        let w3 := saveChunkState key ⟨states2, results2⟩ w2
        processChunksLoop fetch repo key author rest states2 results2 w3
      | (Except.error e, w2) =>
        let failed : ChunkStateR :=
          { inProg with
            status := "failed"
            endTime := some w2.clock
            errorMessage := some e }
        let states2 := assocSet c.index failed states1
        let w3 := saveChunkState key ⟨states2, results⟩ w2
        processChunksLoop fetch repo key author rest states2 results w3

/-- `process_chunks_with_state` (`chunking.py` lines 194-283). -/
def processChunksWithState (fetch : Fetch) (repo : String) (since untl : Nat)
    (author : Option String) (chunks : List DateChunk) (w : World) :
    List Commit × World :=
  let key := getChunkStateKey repo since untl author
  let e := loadChunkState key w
  match processChunksLoop fetch repo key author chunks e.states e.results w
  with
  | (_, results, w') => (aggregateChunkResults results, w')

/-- `track_repository_progress` guarded on an optional operation id
(`chunking.py` lines 311-317 etc.). -/
def trackProgress (operationId : Option String) (repo status : String)
    (commitCount chunkCount completedChunks : Option Nat)
    (errorMessage : Option String) (w : World) : World :=
  match operationId with
  | some op => updateRepositoryProgress op repo status commitCount
      chunkCount completedChunks errorMessage w
  | none => w

/-- `fetch_repo_commits_chunked` (`chunking.py` lines 286-366): operation
tracking, the single-chunk direct-fetch optimization, the multi-chunk
stateful path, and the except-clause recording a failure before
re-raising. -/
def fetchRepoCommitsChunkedE (fetch : Fetch) (repo : String)
    (since untl : Nat) (author : Option String) (maxDays : Nat)
    (operationId : Option String) (w : World) :
    Except String (List Commit) × World :=
  let w0 := trackProgress operationId repo "in_progress" none none none
    none w
  match createDateChunksE since untl maxDays with
  | Except.error e =>
    (Except.error e,
      trackProgress operationId repo "failed" none none none (some e) w0)
  | Except.ok chunks =>
    let w1 := trackProgress operationId repo "in_progress" none
      (some chunks.length) none none w0
    if chunks.length = 1 then
      match fetchCall fetch repo since untl author w1 with
      | (Except.ok commits, w2) =>
        (Except.ok commits,
          trackProgress operationId repo "completed" (some commits.length)
            none (some chunks.length) none w2)
      | (Except.error e, w2) =>
        (Except.error e,
          trackProgress operationId repo "failed" none none none (some e) w2)
    else
      match processChunksWithState fetch repo since untl author chunks w1
      with
      | (res, w2) =>
        (Except.ok res,
          trackProgress operationId repo "completed" (some res.length)
            none (some chunks.length) none w2)

/-- `retry_failed_chunks` (`chunking.py` lines 418-459).  The in-memory
reset of failed states to `pending` (lines 440-444) is never persisted and
`process_chunks_with_state` reloads the cached states, so only the
collected failed indices influence behaviour.  Note the boundary
re-derivation `create_date_chunks(since, until)` uses the default
`max_days = 7`. -/
def retryFailedChunks (fetch : Fetch) (repo : String) (since untl : Nat)
    (author : Option String) (w : World) : List Commit × World :=
  let key := getChunkStateKey repo since untl author
  let e := loadChunkState key w
  if e.states.isEmpty then ([], w)
  else
    let failedIdx :=
      (e.states.filter fun p => p.2.status = "failed").map Prod.fst
    if failedIdx.isEmpty then (aggregateChunkResults e.results, w)
    else
      let allChunks := createDateChunks since untl 7
      let failedChunks := allChunks.filter fun c =>
        failedIdx.contains c.index
      processChunksWithState fetch repo since untl author failedChunks w

/-- The per-repository loop of `process_repositories_with_operation_state`
(`chunking.py` lines 522-548): a repository failure yields an empty list
for that repository and processing continues. -/
def processReposLoop (fetch : Fetch) (opId : String) (since untl : Nat)
    (author : Option String) (maxDays : Nat) :
    List String → List (String × List Commit) → Nat → Nat → World →
      List (String × List Commit) × Nat × Nat × World
  | [], results, completed, failed, w => (results, completed, failed, w)
  | repo :: rest, results, completed, failed, w =>
    match fetchRepoCommitsChunkedE fetch repo since untl author maxDays
      (some opId) w with
    | (Except.ok commits, w') =>
      processReposLoop fetch opId since untl author maxDays rest
        (results ++ [(repo, commits)]) (completed + 1) failed w'
    | (Except.error _, w') =>
      processReposLoop fetch opId since untl author maxDays rest
        (results ++ [(repo, [])]) completed (failed + 1) w'

/-- `process_repositories_with_operation_state` (`chunking.py` lines
462-568): register repositories (the INSERT never fails, so the
`operation not found` branch is unreachable), mark the operation
`in_progress`, process the requested repositories that are pending, and
record the final operation status. -/
def processRepositoriesWithOperationState (fetch : Fetch) (opId : String)
    (repositories : List String) (since untl : Nat) (author : Option String)
    (maxDays : Nat) (w : World) : List (String × List Commit) × World :=
  let w1 := addRepositoriesToOperation opId repositories w
  let w2 := updateOperationStatus opId "in_progress" none none none w1
  let pending := getPendingRepositories opId w2
  let reposToProcess := repositories.filter fun r => pending.contains r
  if reposToProcess.isEmpty then ([], w2)
  else
    match processReposLoop fetch opId since untl author maxDays
      reposToProcess [] 0 0 w2 with
    | (results, completed, failed, w3) =>
      let w4 :=
        if failed = 0 then
          updateOperationStatus opId "completed" none none none w3
        else if 0 < completed then w3
        else
          updateOperationStatus opId "failed"
            (some ("All " ++ toString failed ++ " repositories failed"))
            none none w3
      (results, w4)

/-- `parallel._worker`: processes one repository, converting any exception
into an empty result list. -/
def workerModel (fetch : Fetch) (opId : String) (since untl : Nat)
    (author : Option String) (repo : String) (w : World) :
    (String × List Commit) × World :=
  match fetchRepoCommitsChunkedE fetch repo since untl author 7 (some opId)
    w with
  | (Except.ok commits, w') => ((repo, commits), w')
  | (Except.error _, w') => ((repo, []), w')

/-- The worker pool of `fetch_commits_parallel`, submitting one task per
repository.  The bounded thread pool is modelled by running the workers
sequentially; the returned map collects one entry per submitted task. -/
def workersLoop (fetch : Fetch) (opId : String) (since untl : Nat)
    (author : Option String) :
    List String → List (String × List Commit) → World →
      List (String × List Commit) × World
  | [], results, w => (results, w)
  | repo :: rest, results, w =>
    match workerModel fetch opId since untl author repo w with
    | (entry, w') =>
      workersLoop fetch opId since untl author rest (results ++ [entry]) w'

/-- `parallel.fetch_commits_parallel` (`parallel.py` lines 66-129):
sequential fallback when parallelism is disabled or at most one repository
is requested; otherwise one worker per repository. -/
def fetchCommitsParallel (parallelEnabled : Bool) (fetch : Fetch)
    (opId : String) (repositories : List String) (since untl : Nat)
    (author : Option String) (w : World) :
    List (String × List Commit) × World :=
  if ¬ parallelEnabled ∨ repositories.length ≤ 1 then
    processRepositoriesWithOperationState fetch opId repositories since untl
      author 7 w
  else
    workersLoop fetch opId since untl author repositories [] w

/-- The exception behaviour of `fetch_repo_commits_chunked`, which is
independent of the world: it raises exactly on an invalid range, or on a
fetch failure on the single-chunk direct path (the multi-chunk path absorbs
per-chunk failures). -/
def repoFetchError (fetch : Fetch) (repo : String) (since untl : Nat)
    (author : Option String) (maxDays : Nat) : Option String :=
  match createDateChunksE since untl maxDays with
  | Except.error e => some e
  | Except.ok chunks =>
    if chunks.length = 1 then
      match fetch repo since untl author with
      | Except.ok _ => none
      | Except.error e => some e
    else none

theorem fetchRepoCommitsChunkedE_error_iff (fetch : Fetch) (repo : String)
    (since untl : Nat) (author : Option String) (maxDays : Nat)
    (operationId : Option String) (w : World) (e : String) :
    ((fetchRepoCommitsChunkedE fetch repo since untl author maxDays
        operationId w).1 = Except.error e ↔
      repoFetchError fetch repo since untl author maxDays = some e) := by
  unfold fetchRepoCommitsChunkedE repoFetchError
  rcases hcc : createDateChunksE since untl maxDays with e' | chunks
  · simp
  · dsimp only
    by_cases hl : chunks.length = 1
    · rw [if_pos hl, if_pos hl]
      rcases hf : fetch repo since untl author with e' | commits <;>
        simp [fetchCall, hf]
    · rw [if_neg hl, if_neg hl]
      rcases hp : processChunksWithState fetch repo since untl author chunks
        (trackProgress operationId repo "in_progress" none
          (some chunks.length) none none
          (trackProgress operationId repo "in_progress" none none none none
            w)) with ⟨res, w2⟩
      simp

theorem workersLoop_spec (fetch : Fetch) (opId : String) (since untl : Nat)
    (author : Option String) :
    ∀ (repos : List String) (acc : List (String × List Commit)) (w : World),
      ((workersLoop fetch opId since untl author repos acc w).1.map
          Prod.fst = acc.map Prod.fst ++ repos) ∧
      ∀ p ∈ (workersLoop fetch opId since untl author repos acc w).1,
        p ∈ acc ∨
          (repoFetchError fetch p.1 since untl author 7 ≠ none →
            p.2 = ([] : List Commit)) := by
  intro repos
  induction repos with
  | nil =>
    intro acc w
    refine ⟨by simp [workersLoop], ?_⟩
    intro p hp
    simp only [workersLoop] at hp
    exact Or.inl hp
  | cons repo rest ih =>
    intro acc w
    rcases hw : fetchRepoCommitsChunkedE fetch repo since untl author 7
      (some opId) w with ⟨exr, w'⟩
    cases exr with
    | ok commits =>
      have hstep : workersLoop fetch opId since untl author (repo :: rest)
          acc w = workersLoop fetch opId since untl author rest
            (acc ++ [(repo, commits)]) w' := by
        rw [workersLoop, workerModel, hw]
      obtain ⟨ih1, ih2⟩ := ih (acc ++ [(repo, commits)]) w'
      rw [hstep]
      refine ⟨by rw [ih1]; simp, ?_⟩
      intro p hp
      rcases ih2 p hp with hin | hprop
      · rcases List.mem_append.mp hin with h | h
        · exact Or.inl h
        · right
          intro hne
          have heq := List.mem_singleton.mp h
          subst heq
          obtain ⟨e, he⟩ := Option.ne_none_iff_exists'.mp hne
          have herr := (fetchRepoCommitsChunkedE_error_iff fetch repo since
            untl author 7 (some opId) w e).mpr he
          rw [hw] at herr
          exact absurd herr (by simp)
      · exact Or.inr hprop
    | error e =>
      have hstep : workersLoop fetch opId since untl author (repo :: rest)
          acc w = workersLoop fetch opId since untl author rest
            (acc ++ [(repo, [])]) w' := by
        rw [workersLoop, workerModel, hw]
      obtain ⟨ih1, ih2⟩ := ih (acc ++ [(repo, [])]) w'
      rw [hstep]
      refine ⟨by rw [ih1]; simp, ?_⟩
      intro p hp
      rcases ih2 p hp with hin | hprop
      · rcases List.mem_append.mp hin with h | h
        · exact Or.inl h
        · right
          intro _
          have heq := List.mem_singleton.mp h
          subst heq
          rfl
      · exact Or.inr hprop

theorem processReposLoop_spec (fetch : Fetch) (opId : String)
    (since untl : Nat) (author : Option String) (maxDays : Nat) :
    ∀ (repos : List String) (acc : List (String × List Commit))
      (completed failed : Nat) (w : World),
      ((processReposLoop fetch opId since untl author maxDays repos acc
          completed failed w).1.map Prod.fst = acc.map Prod.fst ++ repos) ∧
      ∀ p ∈ (processReposLoop fetch opId since untl author maxDays repos acc
          completed failed w).1,
        p ∈ acc ∨
          (repoFetchError fetch p.1 since untl author maxDays ≠ none →
            p.2 = ([] : List Commit)) := by
  intro repos
  induction repos with
  | nil =>
    intro acc completed failed w
    refine ⟨by simp [processReposLoop], ?_⟩
    intro p hp
    simp only [processReposLoop] at hp
    exact Or.inl hp
  | cons repo rest ih =>
    intro acc completed failed w
    rcases hw : fetchRepoCommitsChunkedE fetch repo since untl author
      maxDays (some opId) w with ⟨exr, w'⟩
    cases exr with
    | ok commits =>
      have hstep : processReposLoop fetch opId since untl author maxDays
          (repo :: rest) acc completed failed w =
          processReposLoop fetch opId since untl author maxDays rest
            (acc ++ [(repo, commits)]) (completed + 1) failed w' := by
        rw [processReposLoop, hw]
      obtain ⟨ih1, ih2⟩ := ih (acc ++ [(repo, commits)]) (completed + 1)
        failed w'
      rw [hstep]
      refine ⟨by rw [ih1]; simp, ?_⟩
      intro p hp
      rcases ih2 p hp with hin | hprop
      · rcases List.mem_append.mp hin with h | h
        · exact Or.inl h
        · right
          intro hne
          have heq := List.mem_singleton.mp h
          subst heq
          obtain ⟨e, he⟩ := Option.ne_none_iff_exists'.mp hne
          have herr := (fetchRepoCommitsChunkedE_error_iff fetch repo since
            untl author maxDays (some opId) w e).mpr he
          rw [hw] at herr
          exact absurd herr (by simp)
      · exact Or.inr hprop
    | error e =>
      have hstep : processReposLoop fetch opId since untl author maxDays
          (repo :: rest) acc completed failed w =
          processReposLoop fetch opId since untl author maxDays rest
            (acc ++ [(repo, [])]) completed (failed + 1) w' := by
        rw [processReposLoop, hw]
      obtain ⟨ih1, ih2⟩ := ih (acc ++ [(repo, [])]) completed (failed + 1) w'
      rw [hstep]
      refine ⟨by rw [ih1]; simp, ?_⟩
      intro p hp
      rcases ih2 p hp with hin | hprop
      · rcases List.mem_append.mp hin with h | h
        · exact Or.inl h
        · right
          intro _
          have heq := List.mem_singleton.mp h
          subst heq
          rfl
      · exact Or.inr hprop

theorem mem_getPending_after_add (opId : String)
    (repositories : List String) (w : World) (r : String)
    (hr : r ∈ repositories) :
    r ∈ getPendingRepositories opId
      (updateOperationStatus opId "in_progress" none none none
        (addRepositoriesToOperation opId repositories w)) := by
  unfold getPendingRepositories
  apply (stableSort_perm _ _).mem_iff.mpr
  apply List.mem_map.mpr
  refine ⟨⟨opId, r, "pending", none, none, 0, 0, 0, none, 0⟩, ?_, rfl⟩
  apply List.mem_filter.mpr
  constructor
  · show _ ∈ w.repoTable ++ repositories.map _
    exact List.mem_append_right _ (List.mem_map_of_mem _ hr)
  · simp

theorem reposToProcess_all (opId : String) (repositories : List String)
    (w : World) :
    (repositories.filter fun r =>
      (getPendingRepositories opId
        (updateOperationStatus opId "in_progress" none none none
          (addRepositoriesToOperation opId repositories w))).contains r) =
      repositories := by
  apply List.filter_eq_self.mpr
  intro r hr
  have hm := mem_getPending_after_add opId repositories w r hr
  exact List.elem_eq_true_of_mem hm

/-- C4: the top-level entry point, on both its parallel and sequential
paths, returns a map with exactly one entry per requested partition (in
request order), and every partition whose processing raised an exception is
mapped to the empty list instead of aborting siblings or the whole
operation. -/
theorem fetch_commits_parallel_complete_map (parallelEnabled : Bool)
    (fetch : Fetch) (opId : String) (repositories : List String)
    (since untl : Nat) (author : Option String) (w : World) :
    ((fetchCommitsParallel parallelEnabled fetch opId repositories since
        untl author w).1.map Prod.fst = repositories) ∧
    ∀ p ∈ (fetchCommitsParallel parallelEnabled fetch opId repositories
        since untl author w).1,
      repoFetchError fetch p.1 since untl author 7 ≠ none →
        p.2 = ([] : List Commit) := by
  unfold fetchCommitsParallel
  by_cases hpar : ¬ parallelEnabled = true ∨ repositories.length ≤ 1
  · rw [if_pos hpar]
    unfold processRepositoriesWithOperationState
    dsimp only
    rw [reposToProcess_all]
    by_cases hre : repositories.isEmpty
    · rw [if_pos hre]
      have : repositories = [] := by
        cases repositories with
        | nil => rfl
        | cons a l => simp [List.isEmpty] at hre
      subst this
      exact ⟨rfl, by intro p hp; simp at hp⟩
    · rw [if_neg hre]
      rcases hl : processReposLoop fetch opId since untl author 7
          repositories [] 0 0
          (updateOperationStatus opId "in_progress" none none none
            (addRepositoriesToOperation opId repositories w)) with
        ⟨results, completed, failed, w3⟩
      obtain ⟨hs1, hs2⟩ := processReposLoop_spec fetch opId since untl
        author 7 repositories [] 0 0
        (updateOperationStatus opId "in_progress" none none none
          (addRepositoriesToOperation opId repositories w))
      rw [hl] at hs1 hs2
      constructor
      · simpa using hs1
      · intro p hp
        rcases hs2 p hp with hin | hprop
        · exact absurd hin (List.not_mem_nil p)
        · exact hprop
  · rw [if_neg hpar]
    obtain ⟨hs1, hs2⟩ := workersLoop_spec fetch opId since untl author
      repositories [] w
    constructor
    · simpa using hs1
    · intro p hp
      rcases hs2 p hp with hin | hprop
      · exact absurd hin (List.not_mem_nil p)
      · exact hprop

theorem trackProgress_chunkCache (operationId : Option String)
    (repo status : String) (commitCount chunkCount completedChunks : Option Nat)
    (errorMessage : Option String) (w : World) :
    (trackProgress operationId repo status commitCount chunkCount
      completedChunks errorMessage w).chunkCache = w.chunkCache := by
  cases operationId <;> rfl

/-- C8 counterexample: with a single-chunk range `[0, 3]` and a fetch
returning one commit, the direct path returns the raw fetched list while
the stateful path on the same single chunk returns the commit with an added
`_chunk_index = 0` key — the two results are not equal. -/
theorem single_chunk_direct_vs_stateful_counterexample :
    ((fetchRepoCommitsChunkedE (fun _ _ _ _ => Except.ok [⟨some 5, 7, none⟩])
        "octo/repo" 0 3 none 7 none ⟨[], [], [], [], 0⟩).1 =
      Except.ok [⟨some 5, 7, none⟩]) ∧
    ((processChunksWithState (fun _ _ _ _ => Except.ok [⟨some 5, 7, none⟩])
        "octo/repo" 0 3 none (createDateChunks 0 3 7)
        ⟨[], [], [], [], 0⟩).1 = [⟨some 5, 7, some 0⟩]) ∧
    ([⟨some 5, 7, some 0⟩] : List Commit) ≠ [⟨some 5, 7, none⟩] :=
  ⟨rfl, rfl, by decide⟩

/-- C8 (amended): when the range fits in a single chunk the optimized path
calls the fetch function directly, without touching the chunk-state cache,
and returns the raw fetched list; the stateful path on the same single
chunk (from no prior state) would return the same commits, but re-sorted
descending by timestamp and each annotated with `_chunk_index = 0` — so
the optimization preserves the fetched commits exactly as a multiset
modulo the `_chunk_index` annotation and aggregation's re-sorting, not as
a syntactically identical list. -/
theorem single_chunk_direct_amended (fetch : Fetch) (repo : String)
    (since untl : Nat) (author : Option String) (maxDays : Nat)
    (operationId : Option String) (w : World) (cs : List Commit)
    (hsingle : createDateChunks since untl maxDays = [⟨since, untl, 0⟩])
    (hvalid : since ≤ untl)
    (hfetch : fetch repo since untl author = Except.ok cs)
    (hkey : assocGet (getChunkStateKey repo since untl author) w.chunkCache
      = none) :
    ((fetchRepoCommitsChunkedE fetch repo since untl author maxDays
        operationId w).1 = Except.ok cs) ∧
    ((fetchRepoCommitsChunkedE fetch repo since untl author maxDays
        operationId w).2.chunkCache = w.chunkCache) ∧
    ((processChunksWithState fetch repo since untl author
        [⟨since, untl, 0⟩] w).1 =
      stableSort commitLe (cs.map (annotateChunk 0))) ∧
    ((processChunksWithState fetch repo since untl author
        [⟨since, untl, 0⟩] w).1).Perm (cs.map (annotateChunk 0)) := by
  have hchE : createDateChunksE since untl maxDays =
      Except.ok [⟨since, untl, 0⟩] := by
    unfold createDateChunksE
    rw [if_neg (by omega), hsingle]
  have hstateful : (processChunksWithState fetch repo since untl author
      [⟨since, untl, 0⟩] w).1 =
      stableSort commitLe (cs.map (annotateChunk 0)) := by
    unfold processChunksWithState
    dsimp only
    rw [show loadChunkState (getChunkStateKey repo since untl author) w =
      ChunkEntry.empty by unfold loadChunkState; rw [hkey]; rfl]
    simp only [ChunkEntry.empty, processChunksLoop, assocGet, Option.map,
      fetchCall, hfetch, assocSet]
    unfold aggregateChunkResults collectChunkCommits
    simp [stableSort, insertStable, pairLe]
  refine ⟨?_, ?_, hstateful, ?_⟩
  · unfold fetchRepoCommitsChunkedE
    rw [hchE]
    dsimp only
    rw [if_pos (by simp : ([(⟨since, untl, 0⟩ : DateChunk)]).length = 1)]
    simp [fetchCall, hfetch]
  · unfold fetchRepoCommitsChunkedE
    rw [hchE]
    dsimp only
    rw [if_pos (by simp : ([(⟨since, untl, 0⟩ : DateChunk)]).length = 1)]
    simp [fetchCall, hfetch, trackProgress_chunkCache]
  · rw [hstateful]
    exact stableSort_perm _ _

/-- Witness for C8 on the single-chunk range `[0, 3]` with one fetched
commit. -/
theorem single_chunk_direct_amended_witness :
    (createDateChunks 0 3 7 = [⟨0, 3, 0⟩]) ∧ ((0 : Nat) ≤ 3) ∧
    (((fetchRepoCommitsChunkedE (fun _ _ _ _ => Except.ok [⟨some 5, 7, none⟩])
        "octo/repo" 0 3 none 7 none ⟨[], [], [], [], 0⟩).1 =
      Except.ok [⟨some 5, 7, none⟩]) ∧
    ((fetchRepoCommitsChunkedE (fun _ _ _ _ => Except.ok [⟨some 5, 7, none⟩])
        "octo/repo" 0 3 none 7 none ⟨[], [], [], [], 0⟩).2.chunkCache =
      (World.mk [] [] [] [] 0).chunkCache) ∧
    ((processChunksWithState (fun _ _ _ _ => Except.ok [⟨some 5, 7, none⟩])
        "octo/repo" 0 3 none [⟨0, 3, 0⟩] ⟨[], [], [], [], 0⟩).1 =
      stableSort commitLe ([⟨some 5, 7, none⟩].map (annotateChunk 0))) ∧
    ((processChunksWithState (fun _ _ _ _ => Except.ok [⟨some 5, 7, none⟩])
        "octo/repo" 0 3 none [⟨0, 3, 0⟩] ⟨[], [], [], [], 0⟩).1).Perm
      ([⟨some 5, 7, none⟩].map (annotateChunk 0))) :=
  ⟨by decide, by decide,
    single_chunk_direct_amended
      (fun _ _ _ _ => Except.ok [⟨some 5, 7, none⟩])
      "octo/repo" 0 3 none 7 none ⟨[], [], [], [], 0⟩
      [⟨some 5, 7, none⟩] (by decide) (by decide) rfl rfl⟩

theorem assocGet_set_eq [DecidableEq κ] {α : Type} (k : κ) (v : α) :
    ∀ l : List (κ × α), assocGet k (assocSet k v l) = some v := by
  intro l
  induction l with
  | nil => simp [assocSet, assocGet]
  | cons p rest ih =>
    by_cases h : k = p.1
    · rw [show assocSet k v (p :: rest) = (k, v) :: rest by
        rw [assocSet]
        simp [h]]
      simp [assocGet]
    · rw [show assocSet k v (p :: rest) = p :: assocSet k v rest by
        rw [assocSet]
        simp [h]]
      rw [assocGet, if_neg h]
      exact ih

theorem assocGet_set_ne [DecidableEq κ] {α : Type} (k k' : κ) (v : α)
    (h : k' ≠ k) :
    ∀ l : List (κ × α), assocGet k' (assocSet k v l) = assocGet k' l := by
  intro l
  induction l with
  | nil => simp [assocSet, assocGet, h]
  | cons p rest ih =>
    by_cases hk : k = p.1
    · rw [show assocSet k v (p :: rest) = (k, v) :: rest by
        rw [assocSet]
        simp [hk]]
      rw [assocGet, assocGet, if_neg h, if_neg (by rw [← hk]; exact h)]
    · rw [show assocSet k v (p :: rest) = p :: assocSet k v rest by
        rw [assocSet]
        simp [hk]]
      rw [assocGet, assocGet]
      by_cases h' : k' = p.1
      · rw [if_pos h', if_pos h']
      · rw [if_neg h', if_neg h']
        exact ih

theorem assocGet_of_mem_nodup [DecidableEq κ] {α : Type} (k : κ) (v : α) :
    ∀ l : List (κ × α), (l.map Prod.fst).Nodup → (k, v) ∈ l →
      assocGet k l = some v := by
  intro l
  induction l with
  | nil => intro _ h; exact absurd h (List.not_mem_nil _)
  | cons p rest ih =>
    intro hnd hm
    rcases List.mem_cons.mp hm with rfl | hm
    · rw [assocGet, if_pos rfl]
    · rw [assocGet]
      have hne : k ≠ p.1 := by
        intro hk
        rcases List.nodup_cons.mp hnd with ⟨hp, _⟩
        exact hp (hk ▸ List.mem_map_of_mem Prod.fst hm)
      rw [if_neg hne]
      exact ih (List.nodup_cons.mp hnd).2 hm

theorem processChunksLoop_skip (fetch : Fetch) (repo : String)
    (key : ChunkKey) (author : Option String) :
    ∀ (chunks : List DateChunk) (states : List (Nat × ChunkStateR))
      (results : List (Nat × List Commit)) (w : World),
      (∀ c ∈ chunks, (assocGet c.index states).map ChunkStateR.status =
        some "completed") →
      processChunksLoop fetch repo key author chunks states results w =
        (states, results, w) := by
  intro chunks
  induction chunks with
  | nil => intro states results w _; rfl
  | cons c rest ih =>
    intro states results w h
    rw [processChunksLoop, if_pos (h c (List.mem_cons_self c rest))]
    exact ih states results w fun c' hc' => h c' (List.mem_cons_of_mem c hc')

theorem processChunksLoop_run (fetch : Fetch) (repo : String)
    (key : ChunkKey) (author : Option String) :
    ∀ (chunks : List DateChunk) (states : List (Nat × ChunkStateR))
      (results : List (Nat × List Commit)) (w : World),
      (chunks.map DateChunk.index).Nodup →
      (∀ c ∈ chunks, (assocGet c.index states).map ChunkStateR.status ≠
        some "completed") →
      ∀ states' results' w',
        processChunksLoop fetch repo key author chunks states results w =
          (states', results', w') →
        (w'.fetchLog = w.fetchLog ++
          chunks.map fun c => (repo, c.since, c.until_)) ∧
        (∀ i, i ∉ chunks.map DateChunk.index →
          assocGet i states' = assocGet i states ∧
          assocGet i results' = assocGet i results) ∧
        (∀ c ∈ chunks,
          (∀ cs, fetch repo c.since c.until_ author = Except.ok cs →
            (assocGet c.index states').map ChunkStateR.status =
              some "completed" ∧
            assocGet c.index results' = some cs) ∧
          (∀ e, fetch repo c.since c.until_ author = Except.error e →
            (assocGet c.index states').map ChunkStateR.status =
              some "failed" ∧
            assocGet c.index results' = assocGet c.index results)) ∧
        (∀ k', k' ≠ key →
          assocGet k' w'.chunkCache = assocGet k' w.chunkCache) ∧
        (chunks ≠ [] →
          assocGet key w'.chunkCache = some ⟨states', results'⟩) := by
  intro chunks
  induction chunks with
  | nil =>
    intro states results w _ _ states' results' w' hloop
    rw [processChunksLoop] at hloop
    cases hloop
    refine ⟨by simp, ?_, ?_, ?_, ?_⟩
    · intro i _
      exact ⟨rfl, rfl⟩
    · intro c hc
      exact absurd hc (List.not_mem_nil c)
    · intro k' _
      rfl
    · intro h
      exact absurd rfl h
  | cons c rest ih =>
    intro states results w hnd hnc states' results' w' hloop
    have hstat := hnc c (List.mem_cons_self c rest)
    have hndr : (rest.map DateChunk.index).Nodup :=
      (List.nodup_cons.mp (by simpa using hnd)).2
    have hcidx : c.index ∉ rest.map DateChunk.index :=
      (List.nodup_cons.mp (by simpa using hnd)).1
    rw [processChunksLoop, if_neg hstat] at hloop
    rcases hfc : fetch repo c.since c.until_ author with e | cs
    all_goals simp only [fetchCall, hfc, saveChunkState, tickClock] at hloop
    · -- fetch fails for this chunk: marked failed, results untouched
      obtain ⟨ih1, ih2, ih3, ih4, ih5⟩ :=
        ih _ _ _ hndr
          (by
            intro c' hc'
            have hne : c'.index ≠ c.index := by
              intro hcontra
              exact hcidx
                (hcontra ▸ List.mem_map_of_mem DateChunk.index hc')
            rw [assocGet_set_ne _ _ _ hne, assocGet_set_ne _ _ _ hne]
            exact hnc c' (List.mem_cons_of_mem c hc'))
          states' results' w' hloop
      refine ⟨?_, ?_, ?_, ?_, ?_⟩
      · rw [ih1]
        simp
      · intro i hi
        have hine : i ≠ c.index := by
          intro hcontra
          exact hi (by rw [hcontra]; exact List.mem_cons_self _ _)
        have hirest : i ∉ rest.map DateChunk.index := by
          intro hcontra
          exact hi (List.mem_cons_of_mem _ hcontra)
        obtain ⟨h1, h2⟩ := ih2 i hirest
        refine ⟨h1.trans ?_, h2⟩
        rw [assocGet_set_ne _ _ _ hine, assocGet_set_ne _ _ _ hine]
      · intro c' hc'
        rcases List.mem_cons.mp hc' with rfl | hc'
        · constructor
          · intro cs hcs
            rw [hfc] at hcs
            cases hcs
          · intro e' he'
            rw [hfc] at he'
            cases he'
            obtain ⟨h1, h2⟩ := ih2 c'.index hcidx
            refine ⟨?_, h2⟩
            rw [h1, assocGet_set_eq]
            rfl
        · exact ih3 c' hc'
      · intro k' hk'
        rw [ih4 k' hk', assocGet_set_ne _ _ _ hk', assocGet_set_ne _ _ _ hk']
      · intro _
        by_cases hrest : rest = []
        · subst hrest
          rw [processChunksLoop] at hloop
          cases hloop
          exact assocGet_set_eq _ _ _
        · exact ih5 hrest
    · -- fetch succeeds: marked completed, results recorded
      obtain ⟨ih1, ih2, ih3, ih4, ih5⟩ :=
        ih _ _ _ hndr
          (by
            intro c' hc'
            have hne : c'.index ≠ c.index := by
              intro hcontra
              exact hcidx
                (hcontra ▸ List.mem_map_of_mem DateChunk.index hc')
            rw [assocGet_set_ne _ _ _ hne, assocGet_set_ne _ _ _ hne]
            exact hnc c' (List.mem_cons_of_mem c hc'))
          states' results' w' hloop
      refine ⟨?_, ?_, ?_, ?_, ?_⟩
      · rw [ih1]
        simp
      · intro i hi
        have hine : i ≠ c.index := by
          intro hcontra
          exact hi (by rw [hcontra]; exact List.mem_cons_self _ _)
        have hirest : i ∉ rest.map DateChunk.index := by
          intro hcontra
          exact hi (List.mem_cons_of_mem _ hcontra)
        obtain ⟨h1, h2⟩ := ih2 i hirest
        constructor
        · refine h1.trans ?_
          rw [assocGet_set_ne _ _ _ hine, assocGet_set_ne _ _ _ hine]
        · refine h2.trans ?_
          rw [assocGet_set_ne _ _ _ hine]
      · intro c' hc'
        rcases List.mem_cons.mp hc' with rfl | hc'
        · constructor
          · intro cs' hcs'
            rw [hfc] at hcs'
            cases hcs'
            obtain ⟨h1, h2⟩ := ih2 c'.index hcidx
            constructor
            · rw [h1, assocGet_set_eq]
              rfl
            · rw [h2, assocGet_set_eq]
          · intro e' he'
            rw [hfc] at he'
            cases he'
        · obtain ⟨hok', herr'⟩ := ih3 c' hc'
          refine ⟨hok', ?_⟩
          intro e' he'
          obtain ⟨h1, h2⟩ := herr' e' he'
          have hne : c'.index ≠ c.index := by
            intro hcontra
            exact hcidx (hcontra ▸ List.mem_map_of_mem DateChunk.index hc')
          refine ⟨h1, h2.trans ?_⟩
          rw [assocGet_set_ne _ _ _ hne]
      · intro k' hk'
        rw [ih4 k' hk', assocGet_set_ne _ _ _ hk', assocGet_set_ne _ _ _ hk']
      · intro _
        by_cases hrest : rest = []
        · subst hrest
          rw [processChunksLoop] at hloop
          cases hloop
          exact assocGet_set_eq _ _ _
        · exact ih5 hrest

theorem createDateChunks_index_nodup (since untl maxDays : Nat) :
    ((createDateChunks since untl maxDays).map DateChunk.index).Nodup := by
  unfold createDateChunks
  rw [chunksFromAux_map_index untl maxDays (untl + 1 - since) since 0]
  exact List.nodup_range' _ _

/-- C7 counterexample: take the chunk state left by a `max_days = 14` run
over the day range `[0, 20]` (chunks `[0,13]` index 0 completed, `[14,20]`
index 1 failed).  `retry_failed_chunks` re-derives boundaries with the
default `max_days = 7`, so it reprocesses index 1 over `[7, 13]` — a
sub-range already covered by the completed chunk — and never refetches the
failed chunk's original sub-range `[14, 20]`. -/
theorem retry_failed_chunks_counterexample :
    (createDateChunks 0 20 14 = [⟨0, 13, 0⟩, ⟨14, 20, 1⟩]) ∧
    ((retryFailedChunks (fun _ _ _ _ => Except.ok []) "octo/repo" 0 20 none
      ⟨[(⟨"octo/repo", 0, 20, none⟩,
         ⟨[(0, ⟨0, "completed", none, none, 1, none⟩),
           (1, ⟨1, "failed", none, none, 0, some "boom"⟩)],
          [(0, [⟨some 3, 1, none⟩])]⟩)],
        [], [], [], 0⟩).2.fetchLog = [("octo/repo", 7, 13)]) ∧
    (7, 13) ≠ ((14 : Nat), (20 : Nat)) := by
  refine ⟨by decide, by decide, by decide⟩

/-- C7 (amended): `retry_failed_chunks` re-derives chunk boundaries with
the *default* `max_days = 7` (the original run's `max_days` is not passed
through, so the reprocessed sub-ranges coincide with the original ones
exactly when the original run used `max_days = 7`).  For a persisted state
whose failed indices are indices of the `max_days = 7` chunking: exactly
the failed-index chunks are reprocessed (one fetch per failed chunk, over
the 7-day-derived sub-ranges, and no fetch for any other chunk — in
particular completed chunks are not re-fetched), the cached results of
every non-failed chunk are reused unchanged, every successfully refetched
chunk is persisted as `completed` with its new results, and the returned
list aggregates the updated result set. -/
theorem retry_failed_chunks_amended (fetch : Fetch) (repo : String)
    (since untl : Nat) (author : Option String) (w : World)
    (entry : ChunkEntry)
    (hentry : assocGet (getChunkStateKey repo since untl author)
      w.chunkCache = some entry)
    (hne : entry.states ≠ [])
    (hnodup : (entry.states.map Prod.fst).Nodup)
    (hfail : ((entry.states.filter fun p => p.2.status = "failed").map
      Prod.fst) ≠ [])
    (hvalid : ∀ i ∈ (entry.states.filter fun p =>
        p.2.status = "failed").map Prod.fst,
      i ∈ (createDateChunks since untl 7).map DateChunk.index) :
    (∀ i, (i ∈ ((createDateChunks since untl 7).filter fun c =>
        ((entry.states.filter fun p => p.2.status = "failed").map
          Prod.fst).contains c.index).map DateChunk.index ↔
      i ∈ (entry.states.filter fun p => p.2.status = "failed").map
        Prod.fst)) ∧
    ((retryFailedChunks fetch repo since untl author w).2.fetchLog =
      w.fetchLog ++ ((createDateChunks since untl 7).filter fun c =>
        ((entry.states.filter fun p => p.2.status = "failed").map
          Prod.fst).contains c.index).map fun c =>
            (repo, c.since, c.until_)) ∧
    (∃ states' results',
      assocGet (getChunkStateKey repo since untl author)
        (retryFailedChunks fetch repo since untl author w).2.chunkCache =
        some ⟨states', results'⟩ ∧
      (retryFailedChunks fetch repo since untl author w).1 =
        aggregateChunkResults results' ∧
      (∀ i, i ∉ ((createDateChunks since untl 7).filter fun c =>
          ((entry.states.filter fun p => p.2.status = "failed").map
            Prod.fst).contains c.index).map DateChunk.index →
        assocGet i results' = assocGet i entry.results) ∧
      (∀ c ∈ (createDateChunks since untl 7).filter fun c =>
          ((entry.states.filter fun p => p.2.status = "failed").map
            Prod.fst).contains c.index,
        ∀ cs, fetch repo c.since c.until_ author = Except.ok cs →
          (assocGet c.index states').map ChunkStateR.status =
            some "completed" ∧
          assocGet c.index results' = some cs)) ∧
    (∀ k, k ≠ getChunkStateKey repo since untl author →
      assocGet k (retryFailedChunks fetch repo since untl author
        w).2.chunkCache = assocGet k w.chunkCache) := by
  have hload : loadChunkState (getChunkStateKey repo since untl author) w =
      entry := by
    unfold loadChunkState
    rw [hentry]
    rfl
  -- abbreviations
  set failedIdx := (entry.states.filter fun p =>
    p.2.status = "failed").map Prod.fst with hfidx
  set failedChunks := (createDateChunks since untl 7).filter fun c =>
    failedIdx.contains c.index with hfch
  -- the retry call reduces to processing exactly the failed chunks
  have hretry : retryFailedChunks fetch repo since untl author w =
      processChunksWithState fetch repo since untl author failedChunks w := by
    unfold retryFailedChunks
    dsimp only
    rw [hload, ← hfidx]
    rw [if_neg (by simpa using hne), if_neg (by simpa using hfail)]
  -- membership of failed chunk indices
  have hmemiff : ∀ i, i ∈ failedChunks.map DateChunk.index ↔
      i ∈ failedIdx := by
    intro i
    constructor
    · intro hi
      rcases List.mem_map.mp hi with ⟨c, hc, rfl⟩
      rcases List.mem_filter.mp hc with ⟨_, hcont⟩
      exact List.mem_of_elem_eq_true hcont
    · intro hi
      rcases List.mem_map.mp (hvalid i hi) with ⟨c, hc, rfl⟩
      refine List.mem_map_of_mem DateChunk.index ?_
      refine List.mem_filter.mpr ⟨hc, ?_⟩
      exact List.elem_eq_true_of_mem hi
  -- every failed chunk's persisted status is "failed", hence not completed
  have hnc : ∀ c ∈ failedChunks,
      (assocGet c.index entry.states).map ChunkStateR.status ≠
        some "completed" := by
    intro c hc
    have hi : c.index ∈ failedIdx :=
      (hmemiff c.index).mp (List.mem_map_of_mem DateChunk.index hc)
    rcases List.mem_map.mp hi with ⟨p, hp, hpi⟩
    rcases List.mem_filter.mp hp with ⟨hpmem, hpstat⟩
    have hst : p.2.status = "failed" := by simpa using hpstat
    have hget : assocGet c.index entry.states = some p.2 := by
      rw [← hpi]
      exact assocGet_of_mem_nodup p.1 p.2 entry.states hnodup hpmem
    rw [hget]
    simp [hst]
  have hndfc : (failedChunks.map DateChunk.index).Nodup := by
    refine List.Nodup.sublist ?_ (createDateChunks_index_nodup since untl 7)
    exact List.Sublist.map DateChunk.index (List.filter_sublist _)
  have hfcne : failedChunks ≠ [] := by
    rcases List.exists_mem_of_ne_nil _ hfail with ⟨i, hi⟩
    rcases List.mem_map.mp ((hmemiff i).mpr hi) with ⟨c, hc, _⟩
    exact List.ne_nil_of_mem hc
  -- evaluate processChunksWithState via the loop lemma
  rcases hloop : processChunksLoop fetch repo
      (getChunkStateKey repo since untl author) author failedChunks
      entry.states entry.results w with ⟨states', results', w'⟩
  obtain ⟨run1, run2, run3, run4, run5⟩ := processChunksLoop_run fetch repo
    (getChunkStateKey repo since untl author) author failedChunks
    entry.states entry.results w hndfc hnc states' results' w' hloop
  have hpcs : processChunksWithState fetch repo since untl author
      failedChunks w = (aggregateChunkResults results', w') := by
    unfold processChunksWithState
    dsimp only
    rw [hload, hloop]
  rw [hretry, hpcs]
  refine ⟨hmemiff, run1, ⟨states', results', run5 hfcne, rfl, ?_, ?_⟩, run4⟩
  · intro i hi
    exact (run2 i hi).2
  · intro c hc cs hcs
    exact (run3 c hc).1 cs hcs

/-- Fixture for the C7 witness: chunk state left by a `max_days = 7` run
over the day range `[0, 13]` — chunk 0 (`[0,6]`) completed with one cached
commit, chunk 1 (`[7,13]`) failed. -/
def c7Entry : ChunkEntry :=
  ⟨[(0, ⟨0, "completed", none, none, 1, none⟩),
    (1, ⟨1, "failed", none, none, 0, some "boom"⟩)],
   [(0, [⟨some 3, 1, none⟩])]⟩

def c7World : World :=
  ⟨[(⟨"octo/repo", 0, 13, none⟩, c7Entry)], [], [], [], 0⟩

def c7Fetch : Fetch := fun _ _ _ _ => Except.ok [⟨some 9, 4, none⟩]

/-- Witness for C7 on the `[0, 13]` fixture. -/
theorem retry_failed_chunks_amended_witness :
    (assocGet (getChunkStateKey "octo/repo" 0 13 none) c7World.chunkCache =
      some c7Entry) ∧
    c7Entry.states ≠ [] ∧
    (c7Entry.states.map Prod.fst).Nodup ∧
    ((c7Entry.states.filter fun p => p.2.status = "failed").map
      Prod.fst) ≠ [] ∧
    (∀ i ∈ (c7Entry.states.filter fun p =>
        p.2.status = "failed").map Prod.fst,
      i ∈ (createDateChunks 0 13 7).map DateChunk.index) ∧
    ((∀ i, (i ∈ ((createDateChunks 0 13 7).filter fun c =>
        ((c7Entry.states.filter fun p => p.2.status = "failed").map
          Prod.fst).contains c.index).map DateChunk.index ↔
      i ∈ (c7Entry.states.filter fun p => p.2.status = "failed").map
        Prod.fst)) ∧
    ((retryFailedChunks c7Fetch "octo/repo" 0 13 none c7World).2.fetchLog =
      c7World.fetchLog ++ ((createDateChunks 0 13 7).filter fun c =>
        ((c7Entry.states.filter fun p => p.2.status = "failed").map
          Prod.fst).contains c.index).map fun c =>
            ("octo/repo", c.since, c.until_)) ∧
    (∃ states' results',
      assocGet (getChunkStateKey "octo/repo" 0 13 none)
        (retryFailedChunks c7Fetch "octo/repo" 0 13 none
          c7World).2.chunkCache = some ⟨states', results'⟩ ∧
      (retryFailedChunks c7Fetch "octo/repo" 0 13 none c7World).1 =
        aggregateChunkResults results' ∧
      (∀ i, i ∉ ((createDateChunks 0 13 7).filter fun c =>
          ((c7Entry.states.filter fun p => p.2.status = "failed").map
            Prod.fst).contains c.index).map DateChunk.index →
        assocGet i results' = assocGet i c7Entry.results) ∧
      (∀ c ∈ (createDateChunks 0 13 7).filter fun c =>
          ((c7Entry.states.filter fun p => p.2.status = "failed").map
            Prod.fst).contains c.index,
        ∀ cs, c7Fetch "octo/repo" c.since c.until_ none = Except.ok cs →
          (assocGet c.index states').map ChunkStateR.status =
            some "completed" ∧
          assocGet c.index results' = some cs)) ∧
    (∀ k, k ≠ getChunkStateKey "octo/repo" 0 13 none →
      assocGet k (retryFailedChunks c7Fetch "octo/repo" 0 13 none
        c7World).2.chunkCache = assocGet k c7World.chunkCache)) :=
  ⟨by decide, by decide, by decide, by decide, by decide,
    retry_failed_chunks_amended c7Fetch "octo/repo" 0 13 none c7World
      c7Entry (by decide) (by decide) (by decide) (by decide) (by decide)⟩

theorem trackProgress_fetchLog (operationId : Option String)
    (repo status : String)
    (commitCount chunkCount completedChunks : Option Nat)
    (errorMessage : Option String) (w : World) :
    (trackProgress operationId repo status commitCount chunkCount
      completedChunks errorMessage w).fetchLog = w.fetchLog := by
  cases operationId <;> rfl

theorem addRepositories_chunkCache (opId : String) (repos : List String)
    (w : World) :
    (addRepositoriesToOperation opId repos w).chunkCache = w.chunkCache :=
  rfl

theorem addRepositories_fetchLog (opId : String) (repos : List String)
    (w : World) :
    (addRepositoriesToOperation opId repos w).fetchLog = w.fetchLog :=
  rfl

theorem updateOperationStatus_chunkCache (opId status : String)
    (errorMessage : Option String) (totalRepositories totalCommits : Option Nat)
    (w : World) :
    (updateOperationStatus opId status errorMessage totalRepositories
      totalCommits w).chunkCache = w.chunkCache :=
  rfl

theorem updateOperationStatus_fetchLog (opId status : String)
    (errorMessage : Option String) (totalRepositories totalCommits : Option Nat)
    (w : World) :
    (updateOperationStatus opId status errorMessage totalRepositories
      totalCommits w).fetchLog = w.fetchLog :=
  rfl

theorem createDateChunks_ne_nil (since untl maxDays : Nat)
    (hle : since ≤ untl) (hmax : 1 ≤ maxDays) :
    createDateChunks since untl maxDays ≠ [] := by
  have h := (chunksFromAux_cover untl maxDays hmax (untl + 1 - since) since
    0 hle (Nat.le_refl _) since).mp ⟨Nat.le_refl _, hle⟩
  rcases h with ⟨c, hc, _⟩
  exact List.ne_nil_of_mem hc

/-- The chunk-result dict persisted for `(repo, since, until, author)` in a
world. -/
def cacheResultsAt (repo : String) (since untl : Nat)
    (author : Option String) (w : World) : List (Nat × List Commit) :=
  ((assocGet (getChunkStateKey repo since untl author)
    w.chunkCache).getD ChunkEntry.empty).results

theorem fetchChunked_single (fetch : Fetch) (repo : String)
    (since untl : Nat) (author : Option String) (maxDays : Nat)
    (operationId : Option String) (w : World) (cs : List Commit)
    (hle : since ≤ untl)
    (hlen : (createDateChunks since untl maxDays).length = 1)
    (hfr : fetch repo since untl author = Except.ok cs) :
    ∃ w', fetchRepoCommitsChunkedE fetch repo since untl author maxDays
        operationId w = (Except.ok cs, w') ∧
      w'.chunkCache = w.chunkCache ∧
      w'.fetchLog = w.fetchLog ++ [(repo, since, untl)] := by
  refine ⟨trackProgress operationId repo "completed" (some cs.length) none
      (some (createDateChunks since untl maxDays).length) none
      ((fetchCall fetch repo since untl author
        (trackProgress operationId repo "in_progress" none
          (some (createDateChunks since untl maxDays).length) none none
          (trackProgress operationId repo "in_progress" none none none none
            w))).2), ?_, ?_, ?_⟩
  · unfold fetchRepoCommitsChunkedE createDateChunksE
    rw [if_neg (by omega)]
    dsimp only
    rw [if_pos hlen]
    simp only [fetchCall, hfr]
  · simp [trackProgress_chunkCache, fetchCall]
  · simp [trackProgress_fetchLog, fetchCall]

theorem fetchChunked_resume (fetch : Fetch) (repo : String)
    (since untl : Nat) (author : Option String) (maxDays : Nat)
    (operationId : Option String) (w : World)
    (S : List (Nat × ChunkStateR)) (R : List (Nat × List Commit))
    (hkey : assocGet (getChunkStateKey repo since untl author) w.chunkCache
      = some ⟨S, R⟩)
    (hall : ∀ c ∈ createDateChunks since untl maxDays,
      (assocGet c.index S).map ChunkStateR.status = some "completed")
    (hle : since ≤ untl)
    (hlen : (createDateChunks since untl maxDays).length ≠ 1) :
    ∃ w', fetchRepoCommitsChunkedE fetch repo since untl author maxDays
        operationId w = (Except.ok (aggregateChunkResults R), w') ∧
      w'.chunkCache = w.chunkCache ∧
      w'.fetchLog = w.fetchLog := by
  have hload : ∀ w'' : World, w''.chunkCache = w.chunkCache →
      loadChunkState (getChunkStateKey repo since untl author) w'' =
        ⟨S, R⟩ := by
    intro w'' hcc
    unfold loadChunkState
    rw [hcc, hkey]
    rfl
  have hpcs : ∀ w'' : World, w''.chunkCache = w.chunkCache →
      processChunksWithState fetch repo since untl author
        (createDateChunks since untl maxDays) w'' =
        (aggregateChunkResults R, w'') := by
    intro w'' hcc
    unfold processChunksWithState
    dsimp only
    rw [hload w'' hcc,
      processChunksLoop_skip fetch repo _ author _ S R w'' hall]
  refine ⟨trackProgress operationId repo "completed"
      (some (aggregateChunkResults R).length) none
      (some (createDateChunks since untl maxDays).length) none
      (trackProgress operationId repo "in_progress" none
        (some (createDateChunks since untl maxDays).length) none none
        (trackProgress operationId repo "in_progress" none none none none
          w)), ?_, ?_, ?_⟩
  · unfold fetchRepoCommitsChunkedE createDateChunksE
    rw [if_neg (by omega)]
    dsimp only
    rw [if_neg hlen]
    rw [hpcs _ (by simp [trackProgress_chunkCache])]
  · simp [trackProgress_chunkCache]
  · simp [trackProgress_fetchLog]

theorem fetchChunked_run1 (fetch : Fetch) (repo : String)
    (since untl : Nat) (author : Option String) (maxDays : Nat)
    (operationId : Option String) (w : World)
    (hkey0 : assocGet (getChunkStateKey repo since untl author) w.chunkCache
      = none)
    (hok : ∀ s u, ∃ cs, fetch repo s u author = Except.ok cs)
    (hle : since ≤ untl) (hmax : 1 ≤ maxDays)
    (hlen : (createDateChunks since untl maxDays).length ≠ 1) :
    ∃ S R w',
      fetchRepoCommitsChunkedE fetch repo since untl author maxDays
        operationId w = (Except.ok (aggregateChunkResults R), w') ∧
      assocGet (getChunkStateKey repo since untl author) w'.chunkCache =
        some ⟨S, R⟩ ∧
      (∀ c ∈ createDateChunks since untl maxDays,
        (assocGet c.index S).map ChunkStateR.status = some "completed") ∧
      (∀ k, k ≠ getChunkStateKey repo since untl author →
        assocGet k w'.chunkCache = assocGet k w.chunkCache) := by
  have hcc1 : (trackProgress operationId repo "in_progress" none
      (some (createDateChunks since untl maxDays).length) none none
      (trackProgress operationId repo "in_progress" none none none none
        w)).chunkCache = w.chunkCache := by
    simp [trackProgress_chunkCache]
  have hload : loadChunkState (getChunkStateKey repo since untl author)
      (trackProgress operationId repo "in_progress" none
        (some (createDateChunks since untl maxDays).length) none none
        (trackProgress operationId repo "in_progress" none none none none
          w)) = ChunkEntry.empty := by
    unfold loadChunkState
    rw [hcc1, hkey0]
    rfl
  rcases hloop : processChunksLoop fetch repo
      (getChunkStateKey repo since untl author) author
      (createDateChunks since untl maxDays) [] []
      (trackProgress operationId repo "in_progress" none
        (some (createDateChunks since untl maxDays).length) none none
        (trackProgress operationId repo "in_progress" none none none none
          w)) with ⟨S', R', wb⟩
  obtain ⟨-, -, run3, run4, run5⟩ := processChunksLoop_run fetch repo
    (getChunkStateKey repo since untl author) author
    (createDateChunks since untl maxDays) [] []
    (trackProgress operationId repo "in_progress" none
      (some (createDateChunks since untl maxDays).length) none none
      (trackProgress operationId repo "in_progress" none none none none w))
    (createDateChunks_index_nodup since untl maxDays)
    (by intro c _; simp [assocGet])
    S' R' wb hloop
  refine ⟨S', R', trackProgress operationId repo "completed"
      (some (aggregateChunkResults R').length) none
      (some (createDateChunks since untl maxDays).length) none wb,
    ?_, ?_, ?_, ?_⟩
  · unfold fetchRepoCommitsChunkedE createDateChunksE
    rw [if_neg (by omega)]
    dsimp only
    rw [if_neg hlen]
    have hpcs : processChunksWithState fetch repo since untl author
        (createDateChunks since untl maxDays)
        (trackProgress operationId repo "in_progress" none
          (some (createDateChunks since untl maxDays).length) none none
          (trackProgress operationId repo "in_progress" none none none none
            w)) = (aggregateChunkResults R', wb) := by
      unfold processChunksWithState
      dsimp only
      rw [hload]
      simp only [ChunkEntry.empty]
      rw [hloop]
    rw [hpcs]
  · rw [trackProgress_chunkCache]
    exact run5 (createDateChunks_ne_nil since untl maxDays hle hmax)
  · intro c hc
    obtain ⟨cs, hcs⟩ := hok c.since c.until_
    exact ((run3 c hc).1 cs hcs).1
  · intro k hk
    rw [trackProgress_chunkCache, run4 k hk, hcc1]

theorem chunkKey_ne_of_repo_ne (r r' : String) (since untl : Nat)
    (author : Option String) (h : r ≠ r') :
    getChunkStateKey r since untl author ≠
      getChunkStateKey r' since untl author := by
  intro hc
  exact h (congrArg ChunkKey.repo hc)

theorem cacheResultsAt_congr (repo : String) (since untl : Nat)
    (author : Option String) (w w' : World)
    (h : w.chunkCache = w'.chunkCache) :
    cacheResultsAt repo since untl author w =
      cacheResultsAt repo since untl author w' := by
  unfold cacheResultsAt
  rw [h]

theorem processReposLoop_run1 (fetch : Fetch) (opId : String)
    (since untl : Nat) (author : Option String) (maxDays : Nat)
    (hok : ∀ r s u, ∃ cs, fetch r s u author = Except.ok cs)
    (hle : since ≤ untl) (hmax : 1 ≤ maxDays)
    (hlen : (createDateChunks since untl maxDays).length ≠ 1) :
    ∀ (repos : List String) (acc : List (String × List Commit))
      (completed failed : Nat) (w : World),
      repos.Nodup →
      (∀ r ∈ repos, assocGet (getChunkStateKey r since untl author)
        w.chunkCache = none) →
      ∀ results comp fail w',
        processReposLoop fetch opId since untl author maxDays repos acc
          completed failed w = (results, comp, fail, w') →
        (results = acc ++ repos.map fun r =>
          (r, aggregateChunkResults
            (cacheResultsAt r since untl author w'))) ∧
        (∀ r ∈ repos, ∃ S Rr,
          assocGet (getChunkStateKey r since untl author) w'.chunkCache =
            some ⟨S, Rr⟩ ∧
          ∀ c ∈ createDateChunks since untl maxDays,
            (assocGet c.index S).map ChunkStateR.status =
              some "completed") ∧
        (∀ k, (∀ r ∈ repos, k ≠ getChunkStateKey r since untl author) →
          assocGet k w'.chunkCache = assocGet k w.chunkCache) := by
  intro repos
  induction repos with
  | nil =>
    intro acc completed failed w _ _ results comp fail w' hloop
    rw [processReposLoop] at hloop
    cases hloop
    refine ⟨by simp, by simp, fun k _ => rfl⟩
  | cons r rest ih =>
    intro acc completed failed w hnd hfresh results comp fail w' hloop
    obtain ⟨S, Rr, wA, heq, hkeyA, hcompA, hframeA⟩ :=
      fetchChunked_run1 fetch r since untl author maxDays (some opId) w
        (hfresh r (List.mem_cons_self r rest)) (fun s u => hok r s u)
        hle hmax hlen
    rw [processReposLoop, heq] at hloop
    have hndr := (List.nodup_cons.mp hnd).2
    have hrnotin := (List.nodup_cons.mp hnd).1
    have hfreshA : ∀ r' ∈ rest,
        assocGet (getChunkStateKey r' since untl author) wA.chunkCache =
          none := by
      intro r' hr'
      have hne : r' ≠ r := fun hc => hrnotin (hc ▸ hr')
      rw [hframeA _ (chunkKey_ne_of_repo_ne r' r since untl author hne)]
      exact hfresh r' (List.mem_cons_of_mem r hr')
    obtain ⟨ih1, ih2, ih3⟩ := ih (acc ++ [(r, aggregateChunkResults Rr)])
      (completed + 1) failed wA hndr hfreshA results comp fail w' hloop
    have hkeyr : assocGet (getChunkStateKey r since untl author)
        w'.chunkCache = some ⟨S, Rr⟩ := by
      rw [ih3 _ fun r' hr' =>
        chunkKey_ne_of_repo_ne r r' since untl author
          (fun hc => hrnotin (hc ▸ hr'))]
      exact hkeyA
    refine ⟨?_, ?_, ?_⟩
    · rw [ih1]
      have hcr : cacheResultsAt r since untl author w' = Rr := by
        unfold cacheResultsAt
        rw [hkeyr]
        rfl
      simp [hcr]
    · intro r' hr'
      rcases List.mem_cons.mp hr' with rfl | hr'
      · exact ⟨S, Rr, hkeyr, hcompA⟩
      · exact ih2 r' hr'
    · intro k hk
      rw [ih3 k fun r' hr' => hk r' (List.mem_cons_of_mem r hr'),
        hframeA k (hk r (List.mem_cons_self r rest))]

theorem processReposLoop_resume (fetch : Fetch) (opId : String)
    (since untl : Nat) (author : Option String) (maxDays : Nat)
    (hle : since ≤ untl)
    (hlen : (createDateChunks since untl maxDays).length ≠ 1) :
    ∀ (repos : List String) (acc : List (String × List Commit))
      (completed failed : Nat) (w : World),
      (∀ r ∈ repos, ∃ S Rr,
        assocGet (getChunkStateKey r since untl author) w.chunkCache =
          some ⟨S, Rr⟩ ∧
        ∀ c ∈ createDateChunks since untl maxDays,
          (assocGet c.index S).map ChunkStateR.status = some "completed") →
      ∀ results comp fail w',
        processReposLoop fetch opId since untl author maxDays repos acc
          completed failed w = (results, comp, fail, w') →
        (results = acc ++ repos.map fun r =>
          (r, aggregateChunkResults
            (cacheResultsAt r since untl author w))) ∧
        w'.chunkCache = w.chunkCache ∧
        w'.fetchLog = w.fetchLog := by
  intro repos
  induction repos with
  | nil =>
    intro acc completed failed w _ results comp fail w' hloop
    rw [processReposLoop] at hloop
    cases hloop
    exact ⟨by simp, rfl, rfl⟩
  | cons r rest ih =>
    intro acc completed failed w hdone results comp fail w' hloop
    obtain ⟨S, Rr, hkey, hall⟩ := hdone r (List.mem_cons_self r rest)
    obtain ⟨wA, heq, hccA, hlogA⟩ := fetchChunked_resume fetch r since untl
      author maxDays (some opId) w S Rr hkey hall hle hlen
    rw [processReposLoop, heq] at hloop
    have hdoneA : ∀ r' ∈ rest, ∃ S' Rr',
        assocGet (getChunkStateKey r' since untl author) wA.chunkCache =
          some ⟨S', Rr'⟩ ∧
        ∀ c ∈ createDateChunks since untl maxDays,
          (assocGet c.index S').map ChunkStateR.status =
            some "completed" := by
      intro r' hr'
      obtain ⟨S', Rr', hk', ha'⟩ := hdone r' (List.mem_cons_of_mem r hr')
      exact ⟨S', Rr', by rw [hccA]; exact hk', ha'⟩
    obtain ⟨ih1, ih2, ih3⟩ := ih (acc ++ [(r, aggregateChunkResults Rr)])
      (completed + 1) failed wA hdoneA results comp fail w' hloop
    refine ⟨?_, ih2.trans hccA, ih3.trans hlogA⟩
    rw [ih1]
    have hcr : cacheResultsAt r since untl author w = Rr := by
      unfold cacheResultsAt
      rw [hkey]
      rfl
    have hmapeq : (rest.map fun r' =>
        (r', aggregateChunkResults (cacheResultsAt r' since untl author
          wA))) = rest.map fun r' =>
        (r', aggregateChunkResults (cacheResultsAt r' since untl author
          w)) := by
      refine List.map_congr_left ?_
      intro r' _
      rw [cacheResultsAt_congr r' since untl author wA w hccA]
    rw [hmapeq]
    simp [hcr]

theorem processReposLoop_single (fetch : Fetch) (opId : String)
    (since untl : Nat) (author : Option String) (maxDays : Nat)
    (fval : String → List Commit)
    (hfv : ∀ r, fetch r since untl author = Except.ok (fval r))
    (hle : since ≤ untl)
    (hlen : (createDateChunks since untl maxDays).length = 1) :
    ∀ (repos : List String) (acc : List (String × List Commit))
      (completed failed : Nat) (w : World),
      ∀ results comp fail w',
        processReposLoop fetch opId since untl author maxDays repos acc
          completed failed w = (results, comp, fail, w') →
        results = acc ++ repos.map fun r => (r, fval r) := by
  intro repos
  induction repos with
  | nil =>
    intro acc completed failed w results comp fail w' hloop
    rw [processReposLoop] at hloop
    cases hloop
    simp
  | cons r rest ih =>
    intro acc completed failed w results comp fail w' hloop
    obtain ⟨wA, heq, -, -⟩ := fetchChunked_single fetch r since untl author
      maxDays (some opId) w (fval r) hle hlen (hfv r)
    rw [processReposLoop, heq] at hloop
    have := ih (acc ++ [(r, fval r)]) (completed + 1) failed wA results
      comp fail w' hloop
    rw [this]
    simp

theorem processRepos_reduce (fetch : Fetch) (opId : String)
    (repositories : List String) (since untl : Nat) (author : Option String)
    (maxDays : Nat) (w : World) (hne : repositories ≠ [])
    (res : List (String × List Commit)) (wfin : World)
    (hrun : processRepositoriesWithOperationState fetch opId repositories
      since untl author maxDays w = (res, wfin)) :
    ∃ comp fail w3,
      processReposLoop fetch opId since untl author maxDays repositories []
        0 0 (updateOperationStatus opId "in_progress" none none none
          (addRepositoriesToOperation opId repositories w)) =
        (res, comp, fail, w3) ∧
      wfin.chunkCache = w3.chunkCache ∧ wfin.fetchLog = w3.fetchLog := by
  unfold processRepositoriesWithOperationState at hrun
  dsimp only at hrun
  rw [reposToProcess_all] at hrun
  rw [if_neg (by simpa using hne)] at hrun
  rcases hl : processReposLoop fetch opId since untl author maxDays
      repositories [] 0 0 (updateOperationStatus opId "in_progress" none
        none none (addRepositoriesToOperation opId repositories w)) with
    ⟨results, comp, fail, w3⟩
  rw [hl] at hrun
  dsimp only at hrun
  injection hrun with h1 h2
  subst h1
  subst h2
  refine ⟨comp, fail, w3, ?_, ?_, ?_⟩
  · rfl
  · split_ifs <;>
      simp [updateOperationStatus_chunkCache]
  · split_ifs <;>
      simp [updateOperationStatus_fetchLog]

/-- C3: running the sequential orchestration entry point twice with the
same operation id, partitions, date range and a deterministic,
never-failing fetch oracle yields the identical result map, and when the
range spans at least two chunks the second run never invokes the fetch
function at all — every chunk persisted as `completed` by the first run is
served from the chunk-state cache.  (The thread-pool path runs the same
per-repository worker on disjoint state, modelled sequentially.) -/
theorem orchestrate_idempotent_resume (fetch : Fetch) (opId : String)
    (repositories : List String) (since untl : Nat) (author : Option String)
    (maxDays : Nat) (w0 : World)
    (hnd : repositories.Nodup)
    (hcache : w0.chunkCache = [])
    (hok : ∀ r s u, ∃ cs, fetch r s u author = Except.ok cs)
    (hle : since ≤ untl) (hmax : 1 ≤ maxDays) :
    ∀ res1 w1 res2 w2,
      processRepositoriesWithOperationState fetch opId repositories since
        untl author maxDays w0 = (res1, w1) →
      processRepositoriesWithOperationState fetch opId repositories since
        untl author maxDays w1 = (res2, w2) →
      res2 = res1 ∧
      (2 ≤ (createDateChunks since untl maxDays).length →
        w2.fetchLog = w1.fetchLog) := by
  intro res1 w1 res2 w2 hrun1 hrun2
  by_cases hre : repositories = []
  · subst hre
    have heval : ∀ w : World,
        processRepositoriesWithOperationState fetch opId [] since untl
          author maxDays w =
        ([], updateOperationStatus opId "in_progress" none none none
          (addRepositoriesToOperation opId [] w)) := by
      intro w
      unfold processRepositoriesWithOperationState
      dsimp only
      rw [reposToProcess_all]
      simp
    rw [heval] at hrun1 hrun2
    injection hrun1 with h1 h2
    injection hrun2 with h3 h4
    subst h1
    subst h2
    subst h3
    subst h4
    refine ⟨rfl, fun _ => ?_⟩
    rw [updateOperationStatus_fetchLog, addRepositories_fetchLog]
  · obtain ⟨comp1, fail1, w3, hl1, hcc1, hlog1⟩ := processRepos_reduce
      fetch opId repositories since untl author maxDays w0 hre res1 w1 hrun1
    obtain ⟨comp2, fail2, w3', hl2, hcc2, hlog2⟩ := processRepos_reduce
      fetch opId repositories since untl author maxDays w1 hre res2 w2 hrun2
    by_cases hlen1 : (createDateChunks since untl maxDays).length = 1
    · -- single chunk: both runs fetch directly and deterministically
      have hchoice : ∃ fval : String → List Commit,
          ∀ r, fetch r since untl author = Except.ok (fval r) := by
        refine ⟨fun r => (hok r since untl).choose, fun r => ?_⟩
        exact (hok r since untl).choose_spec
      obtain ⟨fval, hfval⟩ := hchoice
      have e1 := processReposLoop_single fetch opId since untl author
        maxDays fval hfval hle hlen1 repositories [] 0 0 _ res1 comp1
        fail1 w3 hl1
      have e2 := processReposLoop_single fetch opId since untl author
        maxDays fval hfval hle hlen1 repositories [] 0 0 _ res2 comp2
        fail2 w3' hl2
      refine ⟨e2.trans e1.symm, fun h2 => ?_⟩
      omega
    · -- multi chunk: run 2 is served entirely from the chunk-state cache
      have hfresh : ∀ r ∈ repositories,
          assocGet (getChunkStateKey r since untl author)
            (updateOperationStatus opId "in_progress" none none none
              (addRepositoriesToOperation opId repositories
                w0)).chunkCache = none := by
        intro r _
        rw [updateOperationStatus_chunkCache, addRepositories_chunkCache,
          hcache]
        rfl
      obtain ⟨d1, d2, -⟩ := processReposLoop_run1 fetch opId since untl
        author maxDays hok hle hmax hlen1 repositories [] 0 0 _ hnd hfresh
        res1 comp1 fail1 w3 hl1
      have hccstart2 : (updateOperationStatus opId "in_progress" none none
          none (addRepositoriesToOperation opId repositories
            w1)).chunkCache = w3.chunkCache := by
        rw [updateOperationStatus_chunkCache, addRepositories_chunkCache,
          hcc1]
      have hdone : ∀ r ∈ repositories, ∃ S Rr,
          assocGet (getChunkStateKey r since untl author)
            (updateOperationStatus opId "in_progress" none none none
              (addRepositoriesToOperation opId repositories
                w1)).chunkCache = some ⟨S, Rr⟩ ∧
          ∀ c ∈ createDateChunks since untl maxDays,
            (assocGet c.index S).map ChunkStateR.status =
              some "completed" := by
        intro r hr
        obtain ⟨S, Rr, hk, hc⟩ := d2 r hr
        exact ⟨S, Rr, by rw [hccstart2]; exact hk, hc⟩
      obtain ⟨e1, -, e2log⟩ := processReposLoop_resume fetch opId since
        untl author maxDays hle hlen1 repositories [] 0 0 _ hdone res2
        comp2 fail2 w3' hl2
      constructor
      · rw [d1, e1]
        simp only [List.nil_append]
        refine List.map_congr_left ?_
        intro r _
        rw [cacheResultsAt_congr r since untl author _ w3 hccstart2]
      · intro _
        rw [hlog2, e2log, updateOperationStatus_fetchLog,
          addRepositories_fetchLog]

/-- Fixture for the C3 witness: a deterministic, never-failing fetch. -/
def c3Fetch : Fetch := fun _ _ _ _ => Except.ok [⟨some 5, 1, none⟩]

/-- Witness for C3: two repositories over the two-chunk range `[0, 13]`
(`max_days = 7`), starting from an empty world. -/
theorem orchestrate_idempotent_resume_witness :
    (["octo/alpha", "octo/beta"] : List String).Nodup ∧
    (World.mk [] [] [] [] 0).chunkCache = [] ∧
    (∀ r s u, ∃ cs, c3Fetch r s u none = Except.ok cs) ∧
    (0 : Nat) ≤ 13 ∧ (1 : Nat) ≤ 7 ∧
    (∀ res1 w1 res2 w2,
      processRepositoriesWithOperationState c3Fetch "op-1"
        ["octo/alpha", "octo/beta"] 0 13 none 7 ⟨[], [], [], [], 0⟩ =
        (res1, w1) →
      processRepositoriesWithOperationState c3Fetch "op-1"
        ["octo/alpha", "octo/beta"] 0 13 none 7 w1 = (res2, w2) →
      res2 = res1 ∧
      (2 ≤ (createDateChunks 0 13 7).length → w2.fetchLog = w1.fetchLog)) :=
  ⟨by decide, rfl, fun r s u => ⟨[⟨some 5, 1, none⟩], rfl⟩,
    by decide, by decide,
    orchestrate_idempotent_resume c3Fetch "op-1"
      ["octo/alpha", "octo/beta"] 0 13 none 7 ⟨[], [], [], [], 0⟩
      (by decide) rfl (fun r s u => ⟨[⟨some 5, 1, none⟩], rfl⟩)
      (by decide) (by decide)⟩

end Hacktivity
